import Mathlib

/-!
Verification development for the USB descriptor compiler in
src/firmware/scripts/descriptorgen.py.

The embedding mirrors the content-node layer of the script: each tag handler
class becomes a constructor of the Node type, the DescriptorCollectionBuilder
grouping and the two-phase DescriptorCollection construction (indexing loop,
then the post_parse resolution loop) become explicit folds in the Except
monad, and the code emission of to_source_iter becomes a list of table rows.
Machine integers of the script are ordinary Nat values (Python ints are
unbounded, so no wrap-around modelling is necessary).
-/

set_option autoImplicit false

namespace DescriptorGen

instance {ε α : Type} [DecidableEq ε] [DecidableEq α] : DecidableEq (Except ε α) := fun x y =>
  match x, y with
  | .ok a, .ok b =>
      if h : a = b then .isTrue (by rw [h]) else .isFalse (by simp [h])
  | .error e, .error f =>
      if h : e = f then .isTrue (by rw [h]) else .isFalse (by simp [h])
  | .ok _, .error _ => .isFalse (by simp)
  | .error _, .ok _ => .isFalse (by simp)

/-- Fatal failures of the compilation pipeline.  The script raises
BadDefinitionError for a duplicate descriptor id and for endpoint
exhaustion; a ref whose target id is absent makes find_by_id return None and
the subsequent attribute access on None aborts the run (modelled as
missingReference); the string-content iterator aborts with a Python
TypeError on a code unit with a non-zero high byte (modelled as typeErr). -/
inductive Err where
  | duplicateId
  | missingReference
  | endpointsExhausted
  | typeErr
  | indexOutOfRange
deriving DecidableEq, Repr

/-- An echo element: the only legal child of a foreach element
(EchoContent, child_of ForeachDescriptor).  It carries the name attribute
used to select binary content, and the optional id every tag may carry. -/
structure EchoNode where
  name : String
  id : Option String
deriving DecidableEq, Repr

/-- Content nodes nested inside a descriptor element, one constructor per
tag-handler class of the script: hidden, byte, word, string, length, type,
ref, index, count, foreach, children, inendpoint/outendpoint (merged with a
direction flag, as in the Endpoint base class), raw.  Every node records the
optional id attribute captured by TagHandler.__init__; BinaryContent
subclasses additionally record the mandatory name attribute.  Fixed-width
values keep their element text verbatim, as the script splices the text into
the generated C expression without evaluating it. -/
inductive Node where
  | hidden (name : String) (size : Nat) (text : String) (id : Option String)
  | byteC (name : String) (text : String) (id : Option String)
  | wordC (name : String) (text : String) (id : Option String)
  | stringC (name : String) (text : List Char) (id : Option String)
  | lengthC (name : String) (size : Nat) (all : Bool) (id : Option String)
  | typeC (name : String) (size : Nat) (id : Option String)
  | refC (name : String) (size : Nat) (rtype : Nat) (refid : String) (id : Option String)
  | indexC (name : String) (size : Nat) (id : Option String)
  | countC (name : String) (size : Nat) (associated : Bool) (ctype : Nat) (id : Option String)
  | foreachC (associated : Bool) (ftype : Nat) (echoes : List EchoNode) (id : Option String)
  | childrenC (ctype : Nat) (id : Option String)
  | endpointC (name : String) (dirIn : Bool) (id : Option String)
  | rawC (text : String) (id : Option String)
deriving DecidableEq, Repr

/-- The attribute fields of a Descriptor element: type, the derived top flag
(absent childof attribute or an explicit top attribute), the first flag, the
childof attribute (field parentid), the wIndex attribute and the optional
id. -/
structure DescCore where
  type : Nat
  top : Bool
  first : Bool
  parentid : Option String
  wIndex : Nat
  id : Option String
deriving DecidableEq, Repr

/-- A parsed Descriptor node: its attributes plus its content children. -/
structure Desc extends DescCore where
  children : List Node
deriving DecidableEq, Repr

/-- A descriptor after the indexing phase: the per-type index has been
assigned (desc.index = self.indexes[typenum]). -/
structure IDesc extends DescCore where
  index : Nat
  children : List Node
deriving DecidableEq, Repr

/-- Resolved content nodes: the constructors of Node, where the fields set
during post_parse are now present (ref/index store their looked-up index,
count its computed cardinality, foreach/children their matched descriptor
positions, endpoint its reserved counter value).  Descriptor identity in
matched sets is represented by the descriptor's position in the
collection's visitation order, mirroring Python object identity. -/
inductive RNode where
  | hidden (name : String) (size : Nat) (text : String) (id : Option String)
  | byteC (name : String) (text : String) (id : Option String)
  | wordC (name : String) (text : String) (id : Option String)
  | stringC (name : String) (text : List Char) (id : Option String)
  | lengthC (name : String) (size : Nat) (all : Bool) (id : Option String)
  | typeC (name : String) (size : Nat) (id : Option String)
  | refC (name : String) (size : Nat) (rtype : Nat) (refid : String) (id : Option String)
      (value : Nat)
  | indexC (name : String) (size : Nat) (id : Option String) (value : Nat)
  | countC (name : String) (size : Nat) (associated : Bool) (ctype : Nat) (id : Option String)
      (value : Nat)
  | foreachC (associated : Bool) (ftype : Nat) (echoes : List EchoNode) (id : Option String)
      (matched : List Nat)
  | childrenC (ctype : Nat) (id : Option String) (matched : List Nat)
  | endpointC (name : String) (dirIn : Bool) (id : Option String) (reserved : Nat)
  | rawC (text : String) (id : Option String)
deriving DecidableEq, Repr

/-- A descriptor after the resolution phase. -/
structure RDesc extends DescCore where
  index : Nat
  children : List RNode
deriving DecidableEq, Repr

instance : Inhabited DescCore := ⟨⟨0, false, false, none, 0, none⟩⟩
instance : Inhabited Desc := ⟨⟨default, []⟩⟩
instance : Inhabited IDesc := ⟨⟨default, 0, []⟩⟩
instance : Inhabited RDesc := ⟨⟨default, 0, []⟩⟩
instance : Inhabited RNode := ⟨.rawC "" none⟩

/-- First-match lookup in an association list, modelling a Python dict read
(keys are kept unique by construction). -/
def alGet {α β : Type} [DecidableEq α] : List (α × β) → α → Option β
  | [], _ => none
  | (k, v) :: l, x => if x = k then some v else alGet l x

/-- Dict write d[k] = v: replace the value of an existing key in place, or
append a fresh key at the end (Python dicts preserve insertion order). -/
def alSet {α β : Type} [DecidableEq α] : List (α × β) → α → β → List (α × β)
  | [], k, v => [(k, v)]
  | (k', w) :: l, k, v => if k = k' then (k, v) :: l else (k', w) :: alSet l k v

/-- The recurring dict idiom: if key absent, bind it to the one-element
list, else append to its list (used for by_type, top and the builder). -/
def alAdd {β : Type} : List (Nat × List β) → Nat → β → List (Nat × List β)
  | [], k, v => [(k, [v])]
  | (k', l) :: rest, k, v =>
      if k = k' then (k', l ++ [v]) :: rest else (k', l) :: alAdd rest k v

/-- DescriptorCollectionBuilder.add_descriptors: descriptors are grouped in
a dict keyed by their type, each group in arrival order. -/
def buildGroups (input : List Desc) : List (Nat × List Desc) :=
  input.foldl (fun gs d => alAdd gs d.type d) []

/-- DescriptorCollectionBuilder.__iter__: yield per type group, groups in
first-occurrence order of the type.  This is the order in which both the
indexing loop and the resolution loop of DescriptorCollection visit the
descriptors. -/
def builderOrder (input : List Desc) : List Desc :=
  (buildGroups input).flatMap (fun g => g.2)

/-- The DescriptorCollection state: the endpoint bound, the top/by_id/
by_type dicts (descriptors referenced by their position in descs), the
per-type next-index counters, and the indexed descriptors in visitation
order. -/
structure Coll where
  maxEndpoints : Nat
  top : List (Nat × List Nat)
  byId : List (Option String × Nat)
  byType : List (Nat × List Nat)
  indexes : List (Nat × Nat)
  descs : List IDesc
deriving DecidableEq, Repr

/-- Descriptor at a collection position (positions are in range whenever
produced by the pipeline; the default is never reached there). -/
def descAt (c : Coll) (p : Nat) : IDesc := c.descs.getD p default

/-- DescriptorCollection.find_by_id: dict lookup returning None when the id
is absent.  The by_id keys are the id attributes of the descriptors, which
may themselves be absent (Python stores None as the key then). -/
def findById (c : Coll) (idname : Option String) : Option Nat :=
  alGet c.byId idname

/-- DescriptorCollection.find_by_type: the by_type list for the type, or
the empty list when the type is absent. -/
def findByType (c : Coll) (t : Nat) : List Nat :=
  (alGet c.byType t).getD []

/-- One step of the indexing loop of DescriptorCollection.__init__: record
the descriptor in top (when top), reject a duplicate id, record it in by_id
and by_type, and assign the next per-type index. -/
def indexStep (c : Coll) (d : Desc) : Except Err Coll :=
  let pos := c.descs.length
  let top' := if d.top then alAdd c.top d.type pos else c.top
  if (alGet c.byId d.id).isSome then .error .duplicateId
  else
    let idx := (alGet c.indexes d.type).getD 0
    .ok { c with
          top := top'
          byId := c.byId ++ [(d.id, pos)]
          byType := alAdd c.byType d.type pos
          indexes := alSet c.indexes d.type (idx + 1)
          descs := c.descs ++ [{ d.toDescCore with index := idx, children := d.children }] }

/-- The indexing loop over the builder iteration order. -/
def indexFold (c : Coll) : List Desc → Except Err Coll
  | [] => .ok c
  | d :: ds =>
      match indexStep c d with
      | .error e => .error e
      | .ok c' => indexFold c' ds

/-- The whole indexing phase, from the empty collection with the configured
endpoint bound. -/
def indexAll (ds : List Desc) (maxEndpoints : Nat) : Except Err Coll :=
  indexFold ⟨maxEndpoints, [], [], [], [], []⟩ ds

/-- DescriptorCollection.reserve_endpoint: fail when the counter has
reached the bound, else return the counter and increment it. -/
def reserveEndpoint (maxEndpoints ep : Nat) : Except Err (Nat × Nat) :=
  if maxEndpoints ≤ ep then .error .endpointsExhausted
  else .ok (ep, ep + 1)

/-- Iterated endpoint reservation: the values handed out by count
consecutive reserve_endpoint calls starting at counter ep. -/
def reserveIter (maxEndpoints : Nat) : Nat → Nat → Except Err (List Nat × Nat)
  | 0, ep => .ok ([], ep)
  | count + 1, ep =>
      match reserveEndpoint maxEndpoints ep with
      | .error e => .error e
      | .ok (v, ep') =>
          match reserveIter maxEndpoints count ep' with
          | .error e => .error e
          | .ok (vs, ep'') => .ok (v :: vs, ep'')

/-- The post_parse hook of a single content node, inside the descriptor at
position self, with the current endpoint counter.  Nodes with no deferred
state pass through unchanged; ref fails when find_by_id yields None (the
script then dereferences None and aborts); count/foreach/children filter
find_by_type as in the script (a count or foreach node always has an
enclosing descriptor in the embedded forest, so the parent-is-None guard of
DescriptorCount.post_parse never fires); endpoint reserves the next
address. -/
def resolveNode (c : Coll) (self ep : Nat) : Node → Except Err (RNode × Nat)
  | .hidden nm sz tx i => .ok (.hidden nm sz tx i, ep)
  | .byteC nm tx i => .ok (.byteC nm tx i, ep)
  | .wordC nm tx i => .ok (.wordC nm tx i, ep)
  | .stringC nm tx i => .ok (.stringC nm tx i, ep)
  | .lengthC nm sz a i => .ok (.lengthC nm sz a i, ep)
  | .typeC nm sz i => .ok (.typeC nm sz i, ep)
  | .refC nm sz t x i =>
      match findById c (some x) with
      | none => .error .missingReference
      | some p => .ok (.refC nm sz t x i (descAt c p).index, ep)
  | .indexC nm sz i => .ok (.indexC nm sz i (descAt c self).index, ep)
  | .countC nm sz assoc t i =>
      let matched := (findByType c t).filter
        (fun p => !assoc || (descAt c p).parentid == (descAt c self).id)
      .ok (.countC nm sz assoc t i matched.length, ep)
  | .foreachC assoc t es i =>
      let matched := (findByType c t).filter
        (fun p => p != self && (!assoc || (descAt c p).parentid == (descAt c self).id))
      .ok (.foreachC assoc t es i matched, ep)
  | .childrenC t i =>
      let matched := (findByType c t).filter
        (fun p => (descAt c p).parentid == (descAt c self).id)
      .ok (.childrenC t i matched, ep)
  | .endpointC nm d i =>
      match reserveEndpoint c.maxEndpoints ep with
      | .error e => .error e
      | .ok (v, ep') => .ok (.endpointC nm d i v, ep')
  | .rawC tx i => .ok (.rawC tx i, ep)

/-- TagHandler.post_parse over a child list: visit the children in order,
threading the endpoint counter. -/
def resolveNodes (c : Coll) (self : Nat) : Nat → List Node → Except Err (List RNode × Nat)
  | ep, [] => .ok ([], ep)
  | ep, n :: ns =>
      match resolveNode c self ep n with
      | .error e => .error e
      | .ok (r, ep') =>
          match resolveNodes c self ep' ns with
          | .error e => .error e
          | .ok (rs, ep'') => .ok (r :: rs, ep'')

/-- The resolution loop of DescriptorCollection.__init__: call post_parse
on every descriptor in visitation order, each one knowing its own position
p, threading the endpoint counter. -/
def resolveDescs (c : Coll) : Nat → Nat → List IDesc → Except Err (List RDesc × Nat)
  | _, ep, [] => .ok ([], ep)
  | p, ep, d :: ds =>
      match resolveNodes c p ep d.children with
      | .error e => .error e
      | .ok (rs, ep') =>
          match resolveDescs c (p + 1) ep' ds with
          | .error e => .error e
          | .ok (rds, ep'') =>
              .ok ({ d.toDescCore with index := d.index, children := rs } :: rds, ep'')

/-- The output of a successful compilation: the indexed collection and the
fully resolved descriptors, positionally aligned with the collection. -/
structure Out where
  coll : Coll
  rdescs : List RDesc
deriving DecidableEq, Repr

instance : Inhabited Coll := ⟨⟨0, [], [], [], [], []⟩⟩
instance : Inhabited Out := ⟨⟨default, []⟩⟩

/-- The whole pipeline: group the input descriptors by type (the builder),
run the indexing phase, then the resolution phase. -/
def compile (input : List Desc) (maxEndpoints : Nat) : Except Err Out :=
  match indexAll (builderOrder input) maxEndpoints with
  | .error e => .error e
  | .ok c =>
      match resolveDescs c 0 0 c.descs with
      | .error e => .error e
      | .ok (rds, _) => .ok ⟨c, rds⟩

/-- Extract the payload of a successful Except value (defaulting on
error); used to name concrete compilation outputs in witnesses. -/
def getOk {α : Type} [Inhabited α] : Except Err α → α
  | .ok a => a
  | .error _ => default

/-- Resolved descriptor at a position of the output. -/
def descAtR (out : Out) (p : Nat) : RDesc := out.rdescs.getD p default

/-- Whether a node is an endpoint tag (InEndpoint or OutEndpoint). -/
def isEp : Node → Bool
  | .endpointC _ _ _ => true
  | _ => false

/-- Number of endpoint nodes in a node list. -/
def epCount (ns : List Node) : Nat := (ns.filter isEp).length

/-- Number of endpoint nodes in the children of a descriptor list. -/
def epCountD (ds : List Desc) : Nat := (ds.map (fun d => epCount d.children)).sum

/-- Number of endpoint nodes of the whole input. -/
def totalEp (input : List Desc) : Nat := epCountD input

/-- The direction flag of an endpoint node; none for other kinds. -/
def dirOf : Node → Option Bool
  | .endpointC _ d _ => some d
  | _ => none

/-- The direction flags of the endpoint nodes of a node list, in order. -/
def epDirs (ns : List Node) : List Bool := ns.filterMap dirOf

/-- The direction flags of all endpoint nodes of a descriptor list, in
visitation order. -/
def epDirsD (ds : List Desc) : List Bool := ds.flatMap (fun d => epDirs d.children)

/-- The (direction, reserved counter) pair of a resolved endpoint node;
none for other kinds. -/
def pairOf : RNode → Option (Bool × Nat)
  | .endpointC _ d _ v => some (d, v)
  | _ => none

/-- The (direction, reserved counter) pairs of the resolved endpoint
nodes of a resolved node list, in order. -/
def epPairs (rs : List RNode) : List (Bool × Nat) :=
  rs.filterMap pairOf

/-- The endpoint pairs of the whole output, in visitation order. -/
def epPairsOut (out : Out) : List (Bool × Nat) :=
  epPairs (out.rdescs.flatMap (fun d => d.children))

/-- The reserved counter values of all endpoint nodes of the output, in
visitation order. -/
def reservedList (out : Out) : List Nat := (epPairsOut out).map (fun pr => pr.2)

/-- The endpoint address emitted for one resolved endpoint node:
Endpoint.endpoint computes the reserved value OR 0x80 for an IN endpoint
and the unmodified reserved value for an OUT endpoint. -/
def epAddrOf (pr : Bool × Nat) : Nat := if pr.1 then pr.2 ||| 0x80 else pr.2

/-- The endpoint addresses of the output, in visitation order. -/
def addrList (out : Out) : List Nat := (epPairsOut out).map epAddrOf

/-- Specification-side address sequence: the i-th endpoint node in
visitation order takes address i, with the high bit set for IN. -/
def epAddrSpec (ds : List Desc) : List Nat :=
  (((epDirsD ds).zip (List.range (epDirsD ds).length)).map epAddrOf)

/-- Whether every ref node of the input names the id of some descriptor of
the input (the condition for find_by_id to succeed during resolution). -/
def refTargetsOk (input : List Desc) : Bool :=
  input.all (fun d => d.children.all (fun n =>
    match n with
    | .refC _ _ _ x _ => input.any (fun d2 => d2.id == some x)
    | _ => true))

/-- Whether one node, if it is a ref, finds its target in the indexed
collection. -/
def refOkN (c : Coll) : Node → Bool
  | .refC _ _ _ x _ => (findById c (some x)).isSome
  | _ => true

/-- Whether the ref nodes of one node list all find their target in the
indexed collection. -/
def nodesOk (c : Coll) (ns : List Node) : Bool := ns.all (refOkN c)

/-- nodesOk over a descriptor list. -/
def nodesOkL (c : Coll) (ds : List IDesc) : Bool := ds.all (fun d => nodesOk c d.children)

/-- Whether every ref node of the collection finds its target. -/
def nodesOkC (c : Coll) : Bool := nodesOkL c c.descs

/-- Number of endpoint nodes in the children of an indexed descriptor
list. -/
def epCountI (ds : List IDesc) : Nat := (ds.map (fun d => epCount d.children)).sum

/-- Endpoint direction flags over an indexed descriptor list, in
visitation order. -/
def epDirsI (ds : List IDesc) : List Bool := ds.flatMap (fun d => epDirs d.children)

/-- The positions of the descriptors of one type, in visitation order
(dense positions into the descs list). -/
def posOfType (l : List IDesc) (t : Nat) : List Nat :=
  (List.range l.length).filter (fun p => (l.getD p default).type == t)

/-- Forget the assigned index of an indexed descriptor. -/
def IDesc.forget (d : IDesc) : Desc := ⟨d.toDescCore, d.children⟩

/-- The ids declared anywhere on one content node (its own id attribute,
plus the ids of nested echo elements for a foreach node). -/
def nodeIds : Node → List String
  | .hidden _ _ _ i => i.toList
  | .byteC _ _ i => i.toList
  | .wordC _ _ i => i.toList
  | .stringC _ _ i => i.toList
  | .lengthC _ _ _ i => i.toList
  | .typeC _ _ i => i.toList
  | .refC _ _ _ _ i => i.toList
  | .indexC _ _ i => i.toList
  | .countC _ _ _ _ i => i.toList
  | .foreachC _ _ es i => i.toList ++ es.filterMap (fun e => e.id)
  | .childrenC _ i => i.toList
  | .endpointC _ _ i => i.toList
  | .rawC _ i => i.toList

/-- All id strings declared anywhere in the input forest, descriptors and
content nodes alike. -/
def allIds (input : List Desc) : List String :=
  input.flatMap (fun d => d.id.toList ++ d.children.flatMap nodeIds)

/-- Buffer name used by the emitter: the descriptor's id formatted with
str.format (a missing id is rendered as the Python literal None). -/
def bufName (d : IDesc) : String :=
  match d.id with
  | some s => s
  | none => "None"

/-- Numeric value of the packed type/index field of a table row: the
emitter concatenates the two-digit-padded hex renderings of type and index
after a 0x prefix, so the value is type shifted past the hex digits of the
index part (at least two of them). -/
def hexcat (t i : Nat) : Nat :=
  t * 16 ^ (max 2 (Nat.log 16 i + 1)) + i

/-- One row of the emitted usb_descriptors table: the packed type/index
word, the wIndex value, the size field (some buffer name stands for
sizeof(buffer), none for the literal 0x00 of the sentinel) and the buffer
reference (none is the NULL of the sentinel). -/
structure Row where
  packed : Nat
  windex : Nat
  szRef : Option String
  buffer : Option String
deriving DecidableEq, Repr

/-- The terminating sentinel row: { 0x0000, 0x0000, 0x00, NULL }, i.e.
packed type 0 and index 0, wIndex 0, size 0 and a null buffer. -/
def sentinelRow : Row := ⟨0, 0, none, none⟩

/-- The table row emitted for the top-level descriptor at one position. -/
def realRow (c : Coll) (p : Nat) : Row :=
  let d := descAt c p
  ⟨hexcat d.type d.index, d.wIndex, some (bufName d), some (bufName d)⟩

/-- The descriptor-table rows of to_source_iter: one row per top-level
descriptor (per type group, in group order), then the sentinel row. -/
def tableRows (c : Coll) : List Row :=
  ((c.top.flatMap (fun g => g.2)).map (realRow c)) ++ [sentinelRow]

/-- UTF-16 code units of a character sequence (a surrogate pair for code
points beyond the basic plane). -/
def utf16Units (s : List Char) : List Nat :=
  s.flatMap (fun ch =>
    let n := ch.toNat
    if n < 0x10000 then [n]
    else
      let m := n - 0x10000
      [0xD800 + m / 0x400, 0xDC00 + m % 0x400])

/-- The UTF-16LE byte sequence of a character sequence, the value of
el.text.encode in StringContent.__init__: low byte then high byte of each
code unit. -/
def utf16le (s : List Char) : List Nat :=
  (utf16Units s).flatMap (fun u => [u % 256, u / 256])

/-- StringContent.__iter__ over the encoded bytes: one item per byte pair.
For a pair with zero high byte the item renders the character and the
0x00; for a non-zero high byte the code evaluates hex(self, bytes[i]) —
a two-argument call to the one-argument builtin (a typo for
hex(self.bytes[i])) — which raises TypeError and aborts the run.  An odd
byte count would make bytes[i+1] raise IndexError (unreachable for UTF-16
encodings).  Items are modelled as the (low, high) pairs. -/
def stringIterPairs : List Nat → Except Err (List (Nat × Nat))
  | [] => .ok []
  | [_] => .error .indexOutOfRange
  | lo :: hi :: rest =>
      if hi = 0 then
        match stringIterPairs rest with
        | .error e => .error e
        | .ok ps => .ok ((lo, hi) :: ps)
      else .error .typeErr

/-- StringContent.__len__: the byte length of the UTF-16LE encoding. -/
def stringLen (s : List Char) : Nat := (utf16le s).length

/-- Whether a resolved node is a children node (the kind
DescriptorLength.parent_length excludes unless the all attribute is
set). -/
def isChildrenC : RNode → Bool
  | .childrenC _ _ _ => true
  | _ => false

/-- Static byte length of a resolved BinaryContent node (__len__ of the
SizedContent and StringContent classes); none for the node kinds that are
not BinaryContent subclasses (foreach, children, raw) — echo selects only
BinaryContent instances, all of which have static length. -/
def binLen : RNode → Option Nat
  | .hidden _ sz _ _ => some sz
  | .byteC _ _ _ => some 1
  | .wordC _ _ _ => some 2
  | .stringC _ tx _ => some (stringLen tx)
  | .lengthC _ sz _ _ => some sz
  | .typeC _ sz _ => some sz
  | .refC _ sz _ _ _ _ => some sz
  | .indexC _ sz _ _ => some sz
  | .countC _ sz _ _ _ _ => some sz
  | .endpointC _ _ _ _ => some 1
  | .foreachC _ _ _ _ _ => none
  | .childrenC _ _ _ => none
  | .rawC _ _ => none

/-- The name attribute of a resolved BinaryContent node; none for the
kinds that carry no name. -/
def rname : RNode → Option String
  | .hidden nm _ _ _ => some nm
  | .byteC nm _ _ => some nm
  | .wordC nm _ _ => some nm
  | .stringC nm _ _ => some nm
  | .lengthC nm _ _ _ => some nm
  | .typeC nm _ _ => some nm
  | .refC nm _ _ _ _ _ => some nm
  | .indexC nm _ _ _ => some nm
  | .countC nm _ _ _ _ _ => some nm
  | .endpointC nm _ _ _ => some nm
  | .foreachC _ _ _ _ _ => none
  | .childrenC _ _ _ => none
  | .rawC _ _ => none

/-- EchoContent.__len__: total length of the BinaryContent children with
the matching name across the matched descriptors. -/
def echoLen (out : Out) (matched : List Nat) (nm : String) : Nat :=
  ((matched.flatMap (fun p => (descAtR out p).children.filter
      (fun c2 => rname c2 == some nm))).map
    (fun c2 => (binLen c2).getD 0)).sum

/-- Byte length of a resolved node, for every kind whose length never
recurses into other descriptors (foreach included: its echo children have
static lengths); none for raw (no __len__) and for children (handled by
rnodeLen with fuel). -/
def rnodeLenFlat (out : Out) : RNode → Option Nat
  | .foreachC _ _ es _ matched => some ((es.map (fun e => echoLen out matched e.name)).sum)
  | .childrenC _ _ _ => none
  | n => binLen n

/-- Byte length of a resolved node (__len__).  ChildrenContent.__len__
sums the lengths of the children of every matched descriptor, which may
recurse into further children nodes; the fuel bounds that recursion depth
(the script would not terminate on a parent-id cycle, an acknowledged
degenerate case, so any statement only needs sufficient fuel). -/
def rnodeLen (out : Out) : Nat → (RNode → Option Nat)
  | 0 => rnodeLenFlat out
  | fuel + 1 => fun n =>
      match n with
      | .childrenC _ _ matched =>
          some ((matched.map (fun p =>
            (((descAtR out p).children).filterMap (rnodeLen out fuel)).sum)).sum)
      | other => rnodeLenFlat out other

/-- DescriptorLength.parent_length for the length node carried by the
descriptor at position i: the sum of len(c) over all children of the
parent that have a length — the length node itself included — keeping
children nodes only when the all attribute is set. -/
def parentLen (out : Out) (fuel i : Nat) (allFlag : Bool) : Nat :=
  ((((descAtR out i).children).filter
      (fun c2 => allFlag || !isChildrenC c2)).filterMap (rnodeLen out fuel)).sum

/-- The end-to-end example: one top-level descriptor of type 0x01 with id
dev containing a one-byte length, a one-byte type field, two constant
bytes 0x12 and 0x34 and one IN endpoint. -/
def exInput : List Desc :=
  [⟨⟨1, true, false, none, 0, some "dev"⟩,
    [.lengthC "bLength" 1 false none,
     .typeC "bDescriptorType" 1 none,
     .byteC "bByte0" "0x12" none,
     .byteC "bByte1" "0x34" none,
     .endpointC "bEndpointAddress" true none]⟩]

/-- The exhaustion scenario: one descriptor containing nine IN
endpoints. -/
def nineEpInput : List Desc :=
  [⟨⟨2, true, false, none, 0, some "cfg"⟩,
    (List.range 9).map (fun k => .endpointC (toString k) true none)⟩]

/-- A compilation in which two non-descriptor nodes (two byte nodes)
carry the same id x. -/
def dupNodeIdInput : List Desc :=
  [⟨⟨1, true, false, none, 0, some "dev"⟩,
    [.byteC "bA" "0x01" (some "x"),
     .byteC "bB" "0x02" (some "x")]⟩]

/-- Two descriptors sharing the id dup. -/
def dupDescIdInput : List Desc :=
  [⟨⟨1, true, false, none, 0, some "dup"⟩, []⟩,
   ⟨⟨2, true, false, none, 0, some "dup"⟩, []⟩]

/-- Five descriptors with interleaved types 1, 2, 1, 2, 1. -/
def interleavedInput : List Desc :=
  [⟨⟨1, true, false, none, 0, some "a"⟩, []⟩,
   ⟨⟨2, true, false, none, 0, some "b"⟩, []⟩,
   ⟨⟨1, true, false, none, 0, some "c"⟩, []⟩,
   ⟨⟨2, true, false, none, 0, some "d"⟩, []⟩,
   ⟨⟨1, true, false, none, 0, some "e"⟩, []⟩]

/-- A forward reference: the first descriptor refs id tgt, declared only
by the second descriptor. -/
def forwardRefInput : List Desc :=
  [⟨⟨1, true, false, none, 0, some "src"⟩,
    [.refC "iRef" 1 2 "tgt" none]⟩,
   ⟨⟨2, true, false, none, 0, some "tgt"⟩,
    [.byteC "bPayload" "0x07" none]⟩]

/-- A dangling reference: the ref targets an id declared nowhere. -/
def danglingRefInput : List Desc :=
  [⟨⟨1, true, false, none, 0, some "src"⟩,
    [.refC "iRef" 1 2 "nowhere" none]⟩]

/-- A count scenario: descriptor par of type 1 counts the associated
descriptors of type 2; two of the three type-2 descriptors claim par as
parent. -/
def countInput : List Desc :=
  [⟨⟨1, true, false, none, 0, some "par"⟩,
    [.countC "bNumChildren" 1 true 2 none]⟩,
   ⟨⟨2, false, false, some "par", 0, some "k1"⟩, []⟩,
   ⟨⟨2, false, false, some "par", 0, some "k2"⟩, []⟩,
   ⟨⟨2, false, false, some "other", 0, some "k3"⟩, []⟩]

/-- A foreach scenario: descriptor fe of type 5 iterates all descriptors
of type 5 with the associated filter off; ge is the only other type-5
descriptor. -/
def foreachInput : List Desc :=
  [⟨⟨5, true, false, none, 0, some "fe"⟩,
    [.foreachC false 5 [⟨"bPayload", none⟩] none]⟩,
   ⟨⟨5, true, false, none, 0, some "ge"⟩,
    [.byteC "bPayload" "0x33" none]⟩]

/-! Association-list lemmas. -/

theorem alGet_append_of_isSome {α β : Type} [DecidableEq α] (l l2 : List (α × β)) (x : α)
    (h : (alGet l x).isSome = true) : alGet (l ++ l2) x = alGet l x := by
  induction l with
  | nil => simp [alGet] at h
  | cons kv l ih =>
      obtain ⟨k, v⟩ := kv
      by_cases hx : x = k
      · simp [alGet, hx]
      · simpa [alGet, hx] using ih (by simpa [alGet, hx] using h)

theorem alGet_append_of_none {α β : Type} [DecidableEq α] (l l2 : List (α × β)) (x : α)
    (h : alGet l x = none) : alGet (l ++ l2) x = alGet l2 x := by
  induction l with
  | nil => simp [alGet]
  | cons kv l ih =>
      obtain ⟨k, v⟩ := kv
      by_cases hx : x = k
      · simp [alGet, hx] at h
      · simpa [alGet, hx] using ih (by simpa [alGet, hx] using h)

theorem alGet_alAdd {β : Type} (g : List (Nat × List β)) (k : Nat) (v : β) (t : Nat) :
    alGet (alAdd g k v) t =
      if t = k then some ((alGet g k).getD [] ++ [v]) else alGet g t := by
  induction g with
  | nil => by_cases ht : t = k <;> simp [alAdd, alGet, ht]
  | cons kv g ih =>
      obtain ⟨k', l⟩ := kv
      by_cases hk : k = k'
      · subst hk
        by_cases ht : t = k <;> simp [alAdd, alGet, ht]
      · by_cases ht : t = k'
        · subst ht
          simp [alAdd, alGet, hk, Ne.symm hk, ih]
        · simp [alAdd, alGet, hk, ht, ih]

theorem alGet_alSet {α : Type} [DecidableEq α] {β : Type} (l : List (α × β)) (k : α) (v : β)
    (t : α) :
    alGet (alSet l k v) t = if t = k then some v else alGet l t := by
  induction l with
  | nil => by_cases ht : t = k <;> simp [alSet, alGet, ht]
  | cons kv l ih =>
      obtain ⟨k', w⟩ := kv
      by_cases hk : k = k'
      · subst hk
        by_cases ht : t = k <;> simp [alSet, alGet, ht]
      · by_cases ht : t = k'
        · subst ht
          simp [alSet, alGet, hk, Ne.symm hk]
        · simp [alSet, alGet, hk, ht, ih]

/-! Builder lemmas: the grouped iteration order is a permutation of the
input, and per type it preserves the input subsequence exactly. -/

theorem flat_alAdd_perm {β : Type} (g : List (Nat × List β)) (k : Nat) (v : β) :
    List.Perm ((alAdd g k v).flatMap (fun p => p.2)) (g.flatMap (fun p => p.2) ++ [v]) := by
  induction g with
  | nil => simp [alAdd]
  | cons kv g ih =>
      obtain ⟨k', l⟩ := kv
      by_cases hk : k = k'
      · subst hk
        have he : alAdd ((k, l) :: g) k v = (k, l ++ [v]) :: g := by simp [alAdd]
        rw [he, List.flatMap_cons, List.flatMap_cons, List.append_assoc, List.append_assoc]
        exact List.Perm.append_left l List.perm_append_comm
      · have he : alAdd ((k', l) :: g) k v = (k', l) :: alAdd g k v := by simp [alAdd, hk]
        rw [he, List.flatMap_cons, List.flatMap_cons, List.append_assoc]
        exact List.Perm.append_left l ih

theorem builderOrder_perm (input : List Desc) : List.Perm (builderOrder input) input := by
  suffices h : ∀ (l : List Desc) (gs : List (Nat × List Desc)),
      List.Perm ((l.foldl (fun acc d => alAdd acc d.type d) gs).flatMap (fun p => p.2))
        (gs.flatMap (fun p => p.2) ++ l) by
    simpa [builderOrder, buildGroups] using h input []
  intro l
  induction l with
  | nil => intro gs; simp
  | cons d l ih =>
      intro gs
      have h2 : List.Perm ((alAdd gs d.type d).flatMap (fun p => p.2) ++ l)
          (gs.flatMap (fun p => p.2) ++ (d :: l)) := by
        have h3 := (flat_alAdd_perm gs d.type d).append_right l
        simpa [List.append_assoc] using h3
      exact (ih _).trans h2

theorem alGet_eq_none_iff {α β : Type} [DecidableEq α] (l : List (α × β)) (x : α) :
    alGet l x = none ↔ x ∉ l.map (fun p => p.1) := by
  induction l with
  | nil => simp [alGet]
  | cons kv l ih =>
      obtain ⟨k, v⟩ := kv
      by_cases hx : x = k
      · simp [alGet, hx]
      · simp [alGet, hx, ih]

theorem alAdd_keys {β : Type} (gs : List (Nat × List β)) (k : Nat) (v : β) :
    (alAdd gs k v).map (fun g => g.1) =
      if (alGet gs k).isSome then gs.map (fun g => g.1)
      else gs.map (fun g => g.1) ++ [k] := by
  induction gs with
  | nil => simp [alAdd, alGet]
  | cons kv gs ih =>
      obtain ⟨k', l⟩ := kv
      by_cases hk : k = k'
      · simp [alAdd, alGet, hk]
      · simp [alAdd, alGet, hk, Ne.symm, ih]
        by_cases hs : (alGet gs k).isSome <;> simp [hs]

/-- The grouping invariant of the builder dict: every group holds
descriptors of exactly its key type, and the keys are distinct. -/
def WellGrouped (gs : List (Nat × List Desc)) : Prop :=
  (∀ g ∈ gs, ∀ d ∈ g.2, d.type = g.1) ∧ (gs.map (fun g => g.1)).Nodup

theorem alAdd_tags (gs : List (Nat × List Desc)) (d : Desc)
    (h : ∀ g ∈ gs, ∀ e ∈ g.2, e.type = g.1) :
    ∀ g ∈ alAdd gs d.type d, ∀ e ∈ g.2, e.type = g.1 := by
  induction gs with
  | nil =>
      intro g hg e he
      simp only [alAdd, List.mem_singleton] at hg
      subst hg
      simp only [List.mem_singleton] at he
      subst he
      rfl
  | cons kv gs ih =>
      obtain ⟨k', l⟩ := kv
      by_cases hk : d.type = k'
      · intro g hg e he
        simp only [alAdd, if_pos hk, List.mem_cons] at hg
        rcases hg with hg | hg
        · subst hg
          simp only [List.mem_append, List.mem_singleton] at he
          rcases he with he | he
          · exact h ⟨k', l⟩ (by simp) e he
          · subst he; exact hk
        · exact h g (by simp [hg]) e he
      · intro g hg e he
        simp only [alAdd, if_neg hk, List.mem_cons] at hg
        rcases hg with hg | hg
        · subst hg
          exact h ⟨k', l⟩ (by simp) e he
        · exact ih (fun g' hg' => h g' (by simp [hg'])) g hg e he

theorem wellGrouped_alAdd (gs : List (Nat × List Desc)) (d : Desc)
    (h : WellGrouped gs) : WellGrouped (alAdd gs d.type d) := by
  refine ⟨alAdd_tags gs d h.1, ?_⟩
  rw [alAdd_keys]
  by_cases hs : (alGet gs d.type).isSome
  · simpa [hs] using h.2
  · have hnotin : d.type ∉ gs.map (fun g => g.1) := by
      rw [← alGet_eq_none_iff]
      exact Option.not_isSome_iff_eq_none.mp hs
    simp only [hs, if_false]
    exact List.Nodup.append h.2 (List.nodup_singleton _)
      (by simpa [List.disjoint_singleton] using hnotin)

theorem wellGrouped_buildGroups (input : List Desc) : WellGrouped (buildGroups input) := by
  suffices h : ∀ (l : List Desc) (gs : List (Nat × List Desc)), WellGrouped gs →
      WellGrouped (l.foldl (fun acc d => alAdd acc d.type d) gs) by
    exact h input [] ⟨by intro g hg; simp at hg, by simp⟩
  intro l
  induction l with
  | nil => intro gs hgs; simpa using hgs
  | cons d l ih => intro gs hgs; exact ih _ (wellGrouped_alAdd gs d hgs)

theorem flat_alAdd_filter (gs : List (Nat × List Desc)) (d : Desc) (t : Nat)
    (h : WellGrouped gs) :
    ((alAdd gs d.type d).flatMap (fun p => p.2)).filter (fun e => e.type == t) =
      (gs.flatMap (fun p => p.2)).filter (fun e => e.type == t) ++
        (if d.type == t then [d] else []) := by
  induction gs with
  | nil => by_cases ht : d.type = t <;> simp [alAdd, ht]
  | cons kv gs ih =>
      obtain ⟨k', l⟩ := kv
      have htags : ∀ g ∈ gs, ∀ e ∈ g.2, e.type = g.1 :=
        fun g hg => h.1 g (by simp [hg])
      have hkeys : (gs.map (fun g => g.1)).Nodup := (List.nodup_cons.mp h.2).2
      have hknot : k' ∉ gs.map (fun g => g.1) := (List.nodup_cons.mp h.2).1
      by_cases hk : d.type = k'
      · simp only [alAdd, if_pos hk, List.flatMap_cons, List.filter_append]
        by_cases ht : d.type = t
        · have hgs : (gs.flatMap (fun p => p.2)).filter (fun e => e.type == t) = [] := by
            rw [List.filter_eq_nil_iff]
            intro e he
            simp only [List.mem_flatMap] at he
            obtain ⟨g, hg, heg⟩ := he
            have : e.type = g.1 := htags g hg e heg
            have hg1 : g.1 ∈ gs.map (fun g => g.1) := List.mem_map_of_mem _ hg
            have hne : e.type ≠ t := by
              intro hcon
              apply hknot
              have hgk : g.1 = k' := by rw [← this, hcon, ← ht, hk]
              exact hgk ▸ hg1
            simp [hne]
          simp [ht, hgs]
        · simp [ht, List.append_assoc]
      · simp only [alAdd, if_neg hk, List.flatMap_cons, List.filter_append]
        rw [ih ⟨htags, hkeys⟩]
        simp [List.append_assoc]

theorem builderOrder_filter (input : List Desc) (t : Nat) :
    (builderOrder input).filter (fun e => e.type == t) =
      input.filter (fun e => e.type == t) := by
  suffices h : ∀ (l : List Desc) (gs : List (Nat × List Desc)), WellGrouped gs →
      ((l.foldl (fun acc d => alAdd acc d.type d) gs).flatMap (fun p => p.2)).filter
          (fun e => e.type == t) =
        (gs.flatMap (fun p => p.2)).filter (fun e => e.type == t) ++
          l.filter (fun e => e.type == t) by
    simpa [builderOrder, buildGroups] using
      h input [] ⟨by intro g hg; simp at hg, by simp⟩
  intro l
  induction l with
  | nil => intro gs hgs; simp
  | cons d l ih =>
      intro gs hgs
      rw [List.foldl_cons, ih _ (wellGrouped_alAdd gs d hgs), flat_alAdd_filter gs d t hgs]
      by_cases ht : d.type = t <;> simp [ht, List.append_assoc]

/-! Indexing-phase lemmas: the collection invariant, its preservation by
indexStep, and the characterization of a successful (or duplicate-id)
indexing run. -/

/-- The invariant of the collection state along the indexing loop: by_id
maps each stored id to an in-range position carrying that id and covers
every stored descriptor; by_type lists exactly the positions of each type
in order; the indices of each type read 0, 1, ... in storage order; the
per-type counters equal the per-type cardinalities. -/
def IxInv (c : Coll) : Prop :=
  (∀ x p, alGet c.byId x = some p → p < c.descs.length ∧ (descAt c p).id = x) ∧
  (∀ p, p < c.descs.length → (alGet c.byId (descAt c p).id).isSome = true) ∧
  (∀ t, (alGet c.byType t).getD [] = posOfType c.descs t) ∧
  (∀ t, ((c.descs.filter (fun e => e.type == t)).map (fun e => e.index)) =
      List.range ((c.descs.filter (fun e => e.type == t)).length)) ∧
  (∀ t, (alGet c.indexes t).getD 0 = (c.descs.filter (fun e => e.type == t)).length)

theorem descAt_mem (c : Coll) (p : Nat) (h : p < c.descs.length) : descAt c p ∈ c.descs := by
  rw [descAt, List.getD_eq_getElem _ _ h]
  exact List.getElem_mem h

theorem mem_ids_isSome (c : Coll) (hinv : IxInv c) (x : Option String)
    (hx : x ∈ c.descs.map (fun e => e.id)) : (alGet c.byId x).isSome = true := by
  obtain ⟨e, he, hex⟩ := List.mem_map.mp hx
  obtain ⟨p, hp, hpe⟩ := List.mem_iff_getElem.mp he
  have : descAt c p = e := by rw [descAt, List.getD_eq_getElem _ _ hp, hpe]
  have h2 := hinv.2.1 p hp
  rw [this, hex] at h2
  exact h2

theorem not_mem_ids_none (c : Coll) (hinv : IxInv c) (x : Option String)
    (hx : x ∉ c.descs.map (fun e => e.id)) : alGet c.byId x = none := by
  cases hq : alGet c.byId x with
  | none => rfl
  | some p =>
      obtain ⟨hp, hid⟩ := hinv.1 x p hq
      exact absurd (List.mem_map.mpr ⟨descAt c p, descAt_mem c p hp, hid⟩) hx

theorem posOfType_snoc (l : List IDesc) (e : IDesc) (t : Nat) :
    posOfType (l ++ [e]) t = posOfType l t ++ (if e.type == t then [l.length] else []) := by
  unfold posOfType
  have hlen : (l ++ [e]).length = l.length + 1 := by simp
  rw [hlen, List.range_succ, List.filter_append]
  have h1 : (List.range l.length).filter (fun p => ((l ++ [e]).getD p default).type == t) =
      (List.range l.length).filter (fun p => (l.getD p default).type == t) := by
    apply List.filter_congr
    intro p hp
    rw [List.getD_append _ _ _ _ (List.mem_range.mp hp)]
  have h2 : ([l.length].filter (fun p => ((l ++ [e]).getD p default).type == t)) =
      (if e.type == t then [l.length] else []) := by
    have hgd : ((l ++ [e]).getD l.length default) = e := by
      rw [List.getD_append_right _ _ _ _ (Nat.le_refl _)]
      simp
    cases hbt : (e.type == t) with
    | true => simp [List.filter, hgd, hbt]
    | false => simp [List.filter, hgd, hbt]
  rw [h1, h2]

/-- Inversion of a successful indexStep: the id was fresh and every field
of the new state is the explicit update. -/
theorem indexStep_ok (c : Coll) (d : Desc) (c' : Coll) (h : indexStep c d = .ok c') :
    alGet c.byId d.id = none ∧
    c'.maxEndpoints = c.maxEndpoints ∧
    c'.top = (if d.top then alAdd c.top d.type c.descs.length else c.top) ∧
    c'.byId = c.byId ++ [(d.id, c.descs.length)] ∧
    c'.byType = alAdd c.byType d.type c.descs.length ∧
    c'.indexes = alSet c.indexes d.type ((alGet c.indexes d.type).getD 0 + 1) ∧
    c'.descs = c.descs ++ [⟨d.toDescCore, (alGet c.indexes d.type).getD 0, d.children⟩] := by
  simp only [indexStep] at h
  by_cases hs : (alGet c.byId d.id).isSome
  · rw [if_pos hs] at h
    cases h
  · rw [if_neg hs] at h
    injection h with h2
    subst h2
    exact ⟨Option.not_isSome_iff_eq_none.mp hs, rfl, rfl, rfl, rfl, rfl, rfl⟩

/-- A fresh id makes indexStep succeed with the explicit update. -/
theorem indexStep_of_none (c : Coll) (d : Desc) (hnone : alGet c.byId d.id = none) :
    indexStep c d =
      .ok { maxEndpoints := c.maxEndpoints
            top := (if d.top then alAdd c.top d.type c.descs.length else c.top)
            byId := c.byId ++ [(d.id, c.descs.length)]
            byType := alAdd c.byType d.type c.descs.length
            indexes := alSet c.indexes d.type ((alGet c.indexes d.type).getD 0 + 1)
            descs := c.descs ++ [⟨d.toDescCore, (alGet c.indexes d.type).getD 0, d.children⟩] } := by
  simp [indexStep, hnone]

/-- A stored id makes indexStep fail with the duplicate-id error. -/
theorem indexStep_of_isSome (c : Coll) (d : Desc)
    (hs : (alGet c.byId d.id).isSome = true) :
    indexStep c d = .error .duplicateId := by
  simp [indexStep, hs]

theorem ixInv_step (c : Coll) (d : Desc) (c' : Coll) (hinv : IxInv c)
    (h : indexStep c d = .ok c') : IxInv c' := by
  obtain ⟨hnone, _, _, hbyId, hbyType, hindexes, hdescs⟩ := indexStep_ok c d c' h
  set newd : IDesc := ⟨d.toDescCore, (alGet c.indexes d.type).getD 0, d.children⟩ with hnewd
  have hlen : c'.descs.length = c.descs.length + 1 := by rw [hdescs]; simp
  have hAtLt : ∀ p, p < c.descs.length → descAt c' p = descAt c p := by
    intro p hp
    rw [descAt, descAt, hdescs, List.getD_append _ _ _ _ hp]
  have hAtNew : descAt c' c.descs.length = newd := by
    rw [descAt, hdescs, List.getD_append_right _ _ _ _ (Nat.le_refl _)]
    simp
  have hnid : newd.id = d.id := rfl
  have hntype : newd.type = d.type := rfl
  refine ⟨?_, ?_, ?_, ?_, ?_⟩
  · intro x p hx
    rw [hbyId] at hx
    cases hq : alGet c.byId x with
    | some q =>
        rw [alGet_append_of_isSome _ _ _ (by simp [hq]), hq] at hx
        injection hx with hx
        subst hx
        obtain ⟨hp, hid⟩ := hinv.1 x q hq
        exact ⟨by omega, by rw [hAtLt q hp]; exact hid⟩
    | none =>
        rw [alGet_append_of_none _ _ _ hq] at hx
        by_cases hxd : x = d.id
        · simp only [alGet, if_pos hxd] at hx
          injection hx with hx
          subst hx
          refine ⟨by omega, ?_⟩
          rw [hAtNew, hxd]
        · simp [alGet, hxd] at hx
  · intro p hp
    rw [hlen] at hp
    rw [hbyId]
    by_cases hplt : p < c.descs.length
    · rw [hAtLt p hplt]
      have hps := hinv.2.1 p hplt
      rw [alGet_append_of_isSome _ _ _ hps]
      exact hps
    · have hpe : p = c.descs.length := by omega
      subst hpe
      rw [hAtNew, hnid]
      rw [alGet_append_of_none _ _ _ hnone]
      simp [alGet]
  · intro t
    rw [hbyType, hdescs, posOfType_snoc, alGet_alAdd]
    by_cases ht : t = d.type
    · rw [if_pos ht, ht]
      have hb : (newd.type == d.type) = true := by simp [hntype]
      rw [hb]
      simp only [Option.getD_some, if_true]
      rw [hinv.2.2.1 d.type]
    · rw [if_neg ht, hinv.2.2.1 t]
      have hb : (newd.type == t) = false := by
        rw [hntype]
        exact beq_eq_false_iff_ne.mpr (fun hcon => ht hcon.symm)
      rw [hb]
      simp
  · intro t
    rw [hdescs, List.filter_append]
    by_cases ht : d.type = t
    · have hb : (newd.type == t) = true := by
        rw [hntype]
        exact beq_iff_eq.mpr ht
      have hf : [newd].filter (fun e => e.type == t) = [newd] := by
        simp [List.filter, hb]
      rw [hf, List.map_append, hinv.2.2.2.1 t, List.length_append]
      have hidx : newd.index = (c.descs.filter (fun e => e.type == t)).length := by
        show (alGet c.indexes d.type).getD 0 = _
        rw [ht]
        exact hinv.2.2.2.2 t
      have hs1 : List.map (fun e => e.index) [newd] =
          [(c.descs.filter (fun e => e.type == t)).length] :=
        congrArg (fun z => [z]) hidx
      have hs2 : ([newd] : List IDesc).length = 1 := rfl
      rw [hs1, hs2, List.range_succ]
    · have hb : (newd.type == t) = false := by
        rw [hntype]
        exact beq_eq_false_iff_ne.mpr ht
      have hf : [newd].filter (fun e => e.type == t) = [] := by
        simp [List.filter, hb]
      rw [hf, List.append_nil]
      exact hinv.2.2.2.1 t
  · intro t
    rw [hindexes, alGet_alSet, hdescs, List.filter_append]
    by_cases ht : t = d.type
    · have hb : (newd.type == t) = true := by
        rw [hntype]
        exact beq_iff_eq.mpr ht.symm
      have hf : [newd].filter (fun e => e.type == t) = [newd] := by
        simp [List.filter, hb]
      rw [if_pos ht, hf, List.length_append, ← ht, hinv.2.2.2.2 t]
      simp
    · have hb : (newd.type == t) = false := by
        rw [hntype]
        exact beq_eq_false_iff_ne.mpr (fun hcon => ht hcon.symm)
      have hf : [newd].filter (fun e => e.type == t) = [] := by
        simp [List.filter, hb]
      rw [if_neg ht, hf, List.append_nil]
      exact hinv.2.2.2.2 t

theorem ixInv_init (M : Nat) : IxInv ⟨M, [], [], [], [], []⟩ := by
  refine ⟨?_, ?_, ?_, ?_, ?_⟩ <;> intros <;> simp_all [alGet, descAt, posOfType]

theorem indexFold_master (ds : List Desc) : ∀ (c : Coll), IxInv c →
    ((c.descs.map (fun e => e.id)) ++ (ds.map (fun e => e.id))).Nodup →
    ∃ c', indexFold c ds = .ok c' ∧ IxInv c' ∧
      c'.descs.map IDesc.forget = c.descs.map IDesc.forget ++ ds ∧
      c'.maxEndpoints = c.maxEndpoints := by
  induction ds with
  | nil => intro c hinv _; exact ⟨c, rfl, hinv, by simp, rfl⟩
  | cons d ds ih =>
      intro c hinv hnd
      have hdnot : d.id ∉ c.descs.map (fun e => e.id) := by
        rcases List.nodup_append.mp hnd with ⟨_, _, hdisj⟩
        exact fun hmem => hdisj hmem (by simp)
      have hnone := not_mem_ids_none c hinv d.id hdnot
      have hstep := indexStep_of_none c d hnone
      obtain ⟨c1, hc1⟩ : ∃ c1, indexStep c d = .ok c1 := ⟨_, hstep⟩
      have hinv1 := ixInv_step c d c1 hinv hc1
      obtain ⟨_, hmax1, _, _, _, _, hdescs1⟩ := indexStep_ok c d c1 hc1
      have hids1 : c1.descs.map (fun e => e.id) = c.descs.map (fun e => e.id) ++ [d.id] := by
        rw [hdescs1]
        simp
      have hnd1 : ((c1.descs.map (fun e => e.id)) ++ (ds.map (fun e => e.id))).Nodup := by
        rw [hids1]
        simpa [List.append_assoc] using hnd
      obtain ⟨c', hfold, hinv', hforget, hmax⟩ := ih c1 hinv1 hnd1
      refine ⟨c', ?_, hinv', ?_, ?_⟩
      · simp only [indexFold, hc1]
        exact hfold
      · rw [hforget, hdescs1, List.map_append]
        simp [IDesc.forget, List.append_assoc]
      · rw [hmax, hmax1]

theorem indexAll_master (ds : List Desc) (M : Nat)
    (hnd : (ds.map (fun e => e.id)).Nodup) :
    ∃ c, indexAll ds M = .ok c ∧ IxInv c ∧ c.descs.map IDesc.forget = ds ∧
      c.maxEndpoints = M := by
  obtain ⟨c, h1, h2, h3, h4⟩ :=
    indexFold_master ds ⟨M, [], [], [], [], []⟩ (ixInv_init M) (by simpa using hnd)
  exact ⟨c, h1, h2, by simpa using h3, h4⟩

theorem indexFold_dup (ds : List Desc) : ∀ (c : Coll), IxInv c →
    (c.descs.map (fun e => e.id)).Nodup →
    ¬ ((c.descs.map (fun e => e.id)) ++ (ds.map (fun e => e.id))).Nodup →
    indexFold c ds = .error .duplicateId := by
  induction ds with
  | nil =>
      intro c _ hA hnd
      exact absurd (by simpa using hA) hnd
  | cons d ds ih =>
      intro c hinv hA hnd
      by_cases hmem : d.id ∈ c.descs.map (fun e => e.id)
      · have hs := mem_ids_isSome c hinv d.id hmem
        simp only [indexFold, indexStep_of_isSome c d hs]
      · have hnone := not_mem_ids_none c hinv d.id hmem
        have hstep := indexStep_of_none c d hnone
        obtain ⟨c1, hc1⟩ : ∃ c1, indexStep c d = .ok c1 := ⟨_, hstep⟩
        have hinv1 := ixInv_step c d c1 hinv hc1
        obtain ⟨_, _, _, _, _, _, hdescs1⟩ := indexStep_ok c d c1 hc1
        have hids1 : c1.descs.map (fun e => e.id) = c.descs.map (fun e => e.id) ++ [d.id] := by
          rw [hdescs1]
          simp
        have hA1 : (c1.descs.map (fun e => e.id)).Nodup := by
          rw [hids1]
          refine List.Nodup.append hA (List.nodup_singleton _) ?_
          simpa [List.disjoint_singleton] using hmem
        have hnd1 : ¬ ((c1.descs.map (fun e => e.id)) ++ (ds.map (fun e => e.id))).Nodup := by
          rw [hids1]
          intro hcon
          exact hnd (by simpa [List.append_assoc] using hcon)
        simp only [indexFold, hc1]
        exact ih c1 hinv1 hA1 hnd1

theorem indexAll_dup (ds : List Desc) (M : Nat)
    (hnd : ¬ (ds.map (fun e => e.id)).Nodup) :
    indexAll ds M = .error .duplicateId := by
  apply indexFold_dup ds ⟨M, [], [], [], [], []⟩ (ixInv_init M) (by simp)
  simpa using hnd

/-! Resolution-phase lemmas: behaviour of the endpoint allocator along the
fixed visitation order, success and failure characterizations. -/

theorem range'_split (s m n : Nat) :
    List.range' s m ++ List.range' (s + m) n = List.range' s (m + n) := by
  have h := List.range'_append s m n 1
  rw [one_mul] at h
  rw [Nat.add_comm m n]
  exact h

theorem dirOf_eq_none (n : Node) (h : isEp n = false) : dirOf n = none := by
  cases n <;> simp_all [isEp, dirOf]

theorem epCount_cons (n : Node) (ns : List Node) :
    epCount (n :: ns) = (if isEp n then 1 else 0) + epCount ns := by
  by_cases h : isEp n <;> simp [epCount, List.filter, h, Nat.add_comm]

theorem isEp_iff_endpoint (n : Node) :
    isEp n = true ↔ ∃ nm d i, n = Node.endpointC nm d i := by
  cases n <;> simp [isEp]

theorem epDirs_cons_ep (nm : String) (d : Bool) (i : Option String) (ns : List Node) :
    epDirs (Node.endpointC nm d i :: ns) = d :: epDirs ns := by
  simp [epDirs, List.filterMap_cons, dirOf]

theorem epDirs_cons_nonEp (n : Node) (ns : List Node) (h : isEp n = false) :
    epDirs (n :: ns) = epDirs ns := by
  simp [epDirs, List.filterMap_cons, dirOf_eq_none n h]

theorem epDirs_length (ns : List Node) : (epDirs ns).length = epCount ns := by
  induction ns with
  | nil => simp [epDirs, epCount]
  | cons n ns ih =>
      by_cases h : isEp n
      · obtain ⟨nm, d, i, hn⟩ := (isEp_iff_endpoint n).mp h
        subst hn
        rw [epDirs_cons_ep, List.length_cons, epCount_cons, ih]
        simp [isEp]
        omega
      · have hf : isEp n = false := by simpa using h
        rw [epDirs_cons_nonEp n ns hf, epCount_cons, hf, ih]
        simp

theorem resolveNode_nonEp (c : Coll) (s ep : Nat) (n : Node) (hep : isEp n = false)
    (hok : refOkN c n = true) :
    ∃ r, resolveNode c s ep n = .ok (r, ep) ∧ pairOf r = none := by
  cases n
  case refC nm sz t x i =>
      simp only [refOkN] at hok
      obtain ⟨p, hp⟩ := Option.isSome_iff_exists.mp hok
      exact ⟨.refC nm sz t x i (descAt c p).index, by simp [resolveNode, hp], rfl⟩
  case endpointC nm d i => simp [isEp] at hep
  all_goals exact ⟨_, rfl, rfl⟩

theorem resolveNode_ep (c : Coll) (s ep : Nat) (nm : String) (d : Bool) (i : Option String) :
    resolveNode c s ep (.endpointC nm d i) =
      if c.maxEndpoints ≤ ep then .error .endpointsExhausted
      else .ok (.endpointC nm d i ep, ep + 1) := by
  by_cases h : c.maxEndpoints ≤ ep <;> simp [resolveNode, reserveEndpoint, h]

theorem resolveNodes_ok (c : Coll) (s : Nat) (ns : List Node) : ∀ ep,
    nodesOk c ns = true → ep + epCount ns ≤ c.maxEndpoints →
    ∃ rs, resolveNodes c s ep ns = .ok (rs, ep + epCount ns) ∧
      epPairs rs = (epDirs ns).zip (List.range' ep (epCount ns)) := by
  induction ns with
  | nil =>
      intro ep _ _
      exact ⟨[], by simp [resolveNodes, epCount], by simp [epPairs, epDirs]⟩
  | cons n ns ih =>
      intro ep hok hle
      have hokn : refOkN c n = true ∧ nodesOk c ns = true := by
        simpa [nodesOk] using hok
      by_cases hep : isEp n
      · obtain ⟨nm, d, i, hn⟩ := (isEp_iff_endpoint n).mp hep
        subst hn
        have hcnt : epCount (Node.endpointC nm d i :: ns) = 1 + epCount ns := by
          simp [epCount_cons, isEp]
        have hlt : ¬ c.maxEndpoints ≤ ep := by
          rw [hcnt] at hle
          omega
        obtain ⟨rs, hrs, hpairs⟩ := ih (ep + 1) hokn.2 (by rw [hcnt] at hle; omega)
        refine ⟨.endpointC nm d i ep :: rs, ?_, ?_⟩
        · have hstep := resolveNode_ep c s ep nm d i
          rw [if_neg hlt] at hstep
          simp only [resolveNodes, hstep, hrs]
          have harith : ep + 1 + epCount ns = ep + epCount (Node.endpointC nm d i :: ns) := by
            rw [hcnt]
            omega
          rw [harith]
        · rw [epDirs_cons_ep, hcnt]
          have hr : List.range' ep (1 + epCount ns) = ep :: List.range' (ep + 1) (epCount ns) := by
            rw [Nat.add_comm 1 (epCount ns)]
            exact List.range'_succ ep (epCount ns) 1
          rw [hr, List.zip_cons_cons]
          show List.filterMap pairOf (RNode.endpointC nm d i ep :: rs) = _
          rw [List.filterMap_cons]
          simp only [pairOf]
          exact congrArg (List.cons (d, ep)) hpairs
      · have hepf : isEp n = false := by simpa using hep
        obtain ⟨r, hr, hpr⟩ := resolveNode_nonEp c s ep n hepf hokn.1
        have hcnt : epCount (n :: ns) = epCount ns := by simp [epCount_cons, hepf]
        obtain ⟨rs, hrs, hpairs⟩ := ih ep hokn.2 (by rw [hcnt] at hle; omega)
        refine ⟨r :: rs, ?_, ?_⟩
        · simp only [resolveNodes, hr, hrs, hcnt]
        · rw [epDirs_cons_nonEp n ns hepf, hcnt]
          show List.filterMap pairOf (r :: rs) = _
          rw [List.filterMap_cons, hpr]
          exact hpairs

theorem resolveNodes_exhaust (c : Coll) (s : Nat) (ns : List Node) : ∀ ep,
    nodesOk c ns = true → ep ≤ c.maxEndpoints → c.maxEndpoints < ep + epCount ns →
    resolveNodes c s ep ns = .error .endpointsExhausted := by
  induction ns with
  | nil =>
      intro ep _ h1 h2
      simp [epCount] at h2
      omega
  | cons n ns ih =>
      intro ep hok h1 h2
      have hokn : refOkN c n = true ∧ nodesOk c ns = true := by
        simpa [nodesOk] using hok
      by_cases hep : isEp n
      · obtain ⟨nm, d, i, hn⟩ := (isEp_iff_endpoint n).mp hep
        subst hn
        have hcnt : epCount (Node.endpointC nm d i :: ns) = 1 + epCount ns := by
          simp [epCount_cons, isEp]
        by_cases hfull : c.maxEndpoints ≤ ep
        · have hstep := resolveNode_ep c s ep nm d i
          rw [if_pos hfull] at hstep
          simp only [resolveNodes, hstep]
        · have hok1 := resolveNode_ep c s ep nm d i
          rw [if_neg hfull] at hok1
          simp only [resolveNodes, hok1]
          rw [ih (ep + 1) hokn.2 (by omega) (by rw [hcnt] at h2; omega)]
      · have hepf : isEp n = false := by simpa using hep
        obtain ⟨r, hr, _⟩ := resolveNode_nonEp c s ep n hepf hokn.1
        have hcnt : epCount (n :: ns) = epCount ns := by simp [epCount_cons, hepf]
        simp only [resolveNodes, hr]
        rw [ih ep hokn.2 h1 (by rw [hcnt] at h2; omega)]

theorem resolveNodes_missing (c : Coll) (s : Nat) (ns : List Node) : ∀ ep,
    nodesOk c ns = false → ep + epCount ns ≤ c.maxEndpoints →
    resolveNodes c s ep ns = .error .missingReference := by
  induction ns with
  | nil => intro ep hok _; simp [nodesOk] at hok
  | cons n ns ih =>
      intro ep hok hle
      rw [nodesOk, List.all_cons, Bool.and_eq_false_iff] at hok
      by_cases hrn : refOkN c n = true
      · have hns : nodesOk c ns = false := by
          rcases hok with hok | hok
          · rw [hrn] at hok; cases hok
          · exact hok
        by_cases hep : isEp n
        · obtain ⟨nm, d, i, hn⟩ := (isEp_iff_endpoint n).mp hep
          subst hn
          have hcnt : epCount (Node.endpointC nm d i :: ns) = 1 + epCount ns := by
            simp [epCount_cons, isEp]
          have hlt : ¬ c.maxEndpoints ≤ ep := by rw [hcnt] at hle; omega
          have hok1 := resolveNode_ep c s ep nm d i
          rw [if_neg hlt] at hok1
          simp only [resolveNodes, hok1]
          rw [ih (ep + 1) hns (by rw [hcnt] at hle; omega)]
        · have hepf : isEp n = false := by simpa using hep
          obtain ⟨r, hr, _⟩ := resolveNode_nonEp c s ep n hepf hrn
          have hcnt : epCount (n :: ns) = epCount ns := by simp [epCount_cons, hepf]
          simp only [resolveNodes, hr]
          rw [ih ep hns (by rw [hcnt] at hle; omega)]
      · have hbad : refOkN c n = false := by simpa using hrn
        obtain ⟨nm, sz, t, x, i, hn⟩ : ∃ nm sz t x i, n = Node.refC nm sz t x i := by
          cases n <;> simp_all [refOkN]
        subst hn
        have hfind : findById c (some x) = none := by
          simp only [refOkN] at hbad
          exact Option.not_isSome_iff_eq_none.mp (by simp [hbad])
        simp [resolveNodes, resolveNode, hfind]

theorem resolveNodes_mem (c : Coll) (s : Nat) (ns : List Node) : ∀ ep rs epf,
    resolveNodes c s ep ns = .ok (rs, epf) →
    ∀ r ∈ rs, ∃ n, n ∈ ns ∧ ∃ e1 e2, resolveNode c s e1 n = .ok (r, e2) := by
  induction ns with
  | nil =>
      intro ep rs epf h r hr
      simp only [resolveNodes] at h
      injection h with h
      injection h with h1 h2
      subst h1
      simp at hr
  | cons n ns ih =>
      intro ep rs epf h r hr
      simp only [resolveNodes] at h
      cases hn : resolveNode c s ep n with
      | error e =>
          simp only [hn] at h
          exact Except.noConfusion h
      | ok v =>
          obtain ⟨r0, ep'⟩ := v
          simp only [hn] at h
          cases hrest : resolveNodes c s ep' ns with
          | error e =>
              simp only [hrest] at h
              exact Except.noConfusion h
          | ok w =>
              obtain ⟨rs0, ep''⟩ := w
              simp only [hrest] at h
              injection h with h
              injection h with h1 h2
              subst h1
              rcases List.mem_cons.mp hr with hr | hr
              · subst hr
                exact ⟨n, by simp, ep, ep', hn⟩
              · obtain ⟨n2, hn2, he⟩ := ih ep' rs0 ep'' hrest r hr
                exact ⟨n2, by simp [hn2], he⟩

theorem resolveDescs_ok (c : Coll) (ds : List IDesc) : ∀ p ep,
    nodesOkL c ds = true → ep + epCountI ds ≤ c.maxEndpoints →
    ∃ rds, resolveDescs c p ep ds = .ok (rds, ep + epCountI ds) ∧
      epPairs (rds.flatMap (fun d => d.children)) =
        (epDirsI ds).zip (List.range' ep (epCountI ds)) := by
  induction ds with
  | nil =>
      intro p ep _ _
      exact ⟨[], by simp [resolveDescs, epCountI], by simp [epPairs, epDirsI]⟩
  | cons d ds ih =>
      intro p ep hok hle
      have hokn : nodesOk c d.children = true ∧ nodesOkL c ds = true := by
        simpa [nodesOkL] using hok
      have hcnt : epCountI (d :: ds) = epCount d.children + epCountI ds := by
        simp [epCountI, epCount]
      obtain ⟨rs, hrs, hpairs⟩ :=
        resolveNodes_ok c p d.children ep hokn.1 (by rw [hcnt] at hle; omega)
      obtain ⟨rds, hrds, hpairsD⟩ :=
        ih (p + 1) (ep + epCount d.children) hokn.2 (by rw [hcnt] at hle; omega)
      refine ⟨{ d.toDescCore with index := d.index, children := rs } :: rds, ?_, ?_⟩
      · simp only [resolveDescs, hrs, hrds]
        have harith : ep + epCount d.children + epCountI ds = ep + epCountI (d :: ds) := by
          rw [hcnt]
          omega
        rw [harith]
      · rw [List.flatMap_cons]
        show List.filterMap pairOf (rs ++ rds.flatMap (fun d => d.children)) = _
        rw [List.filterMap_append]
        have hdirs : epDirsI (d :: ds) = epDirs d.children ++ epDirsI ds := by
          simp [epDirsI]
        rw [hdirs, hcnt, ← range'_split ep (epCount d.children) (epCountI ds)]
        rw [List.zip_append (by rw [epDirs_length]; simp)]
        rw [← hpairs, ← hpairsD]
        rfl

theorem resolveDescs_exhaust (c : Coll) (ds : List IDesc) : ∀ p ep,
    nodesOkL c ds = true → ep ≤ c.maxEndpoints → c.maxEndpoints < ep + epCountI ds →
    resolveDescs c p ep ds = .error .endpointsExhausted := by
  induction ds with
  | nil =>
      intro p ep _ h1 h2
      simp [epCountI] at h2
      omega
  | cons d ds ih =>
      intro p ep hok h1 h2
      have hokn : nodesOk c d.children = true ∧ nodesOkL c ds = true := by
        simpa [nodesOkL] using hok
      have hcnt : epCountI (d :: ds) = epCount d.children + epCountI ds := by
        simp [epCountI, epCount]
      by_cases hx : c.maxEndpoints < ep + epCount d.children
      · have herr := resolveNodes_exhaust c p d.children ep hokn.1 h1 hx
        simp only [resolveDescs, herr]
      · have hnle : ep + epCount d.children ≤ c.maxEndpoints := by omega
        obtain ⟨rs, hrs, _⟩ := resolveNodes_ok c p d.children ep hokn.1 hnle
        simp only [resolveDescs, hrs]
        rw [ih (p + 1) (ep + epCount d.children) hokn.2 (by omega)
          (by rw [hcnt] at h2; omega)]

theorem resolveDescs_missing (c : Coll) (ds : List IDesc) : ∀ p ep,
    nodesOkL c ds = false → ep + epCountI ds ≤ c.maxEndpoints →
    resolveDescs c p ep ds = .error .missingReference := by
  induction ds with
  | nil =>
      intro p ep hok _
      simp [nodesOkL] at hok
  | cons d ds ih =>
      intro p ep hok hle
      have hcnt : epCountI (d :: ds) = epCount d.children + epCountI ds := by
        simp [epCountI, epCount]
      by_cases hch : nodesOk c d.children = true
      · have hrest : nodesOkL c ds = false := by
          rw [nodesOkL, List.all_cons, Bool.and_eq_false_iff] at hok
          rcases hok with hok | hok
          · rw [hch] at hok; cases hok
          · exact hok
        obtain ⟨rs, hrs, _⟩ :=
          resolveNodes_ok c p d.children ep hch (by rw [hcnt] at hle; omega)
        simp only [resolveDescs, hrs]
        rw [ih (p + 1) (ep + epCount d.children) hrest (by rw [hcnt] at hle; omega)]
      · have hchf : nodesOk c d.children = false := by simpa using hch
        have herr := resolveNodes_missing c p d.children ep hchf
          (by rw [hcnt] at hle; omega)
        simp only [resolveDescs, herr]

theorem resolveDescs_nth (c : Coll) (ds : List IDesc) : ∀ p ep rds epf,
    resolveDescs c p ep ds = .ok (rds, epf) →
    rds.length = ds.length ∧
    ∀ i, i < ds.length →
      ∃ rs e1 e2, resolveNodes c (p + i) e1 (ds.getD i default).children = .ok (rs, e2) ∧
        rds.getD i default =
          { (ds.getD i default).toDescCore with
            index := (ds.getD i default).index
            children := rs } := by
  induction ds with
  | nil =>
      intro p ep rds epf h
      simp only [resolveDescs] at h
      injection h with h
      injection h with h1 h2
      subst h1
      exact ⟨rfl, by intro i hi; simp at hi⟩
  | cons d ds ih =>
      intro p ep rds epf h
      simp only [resolveDescs] at h
      cases hn : resolveNodes c p ep d.children with
      | error e =>
          simp only [hn] at h
          exact Except.noConfusion h
      | ok v =>
          obtain ⟨rs, ep'⟩ := v
          simp only [hn] at h
          cases hrest : resolveDescs c (p + 1) ep' ds with
          | error e =>
              simp only [hrest] at h
              exact Except.noConfusion h
          | ok w =>
              obtain ⟨rds0, ep''⟩ := w
              simp only [hrest] at h
              injection h with h
              injection h with h1 h2
              subst h1
              obtain ⟨hlen, hnth⟩ := ih (p + 1) ep' rds0 ep'' hrest
              refine ⟨by simp [hlen], ?_⟩
              intro i hi
              cases i with
              | zero => exact ⟨rs, ep, ep', by simpa using hn, by simp⟩
              | succ j =>
                  have hj : j < ds.length := by simpa using hi
                  obtain ⟨rs2, e1, e2, ha, hb⟩ := hnth j hj
                  refine ⟨rs2, e1, e2, ?_, ?_⟩
                  · have harith : p + (j + 1) = p + 1 + j := by omega
                    rw [harith]
                    simpa using ha
                  · simpa using hb

/-! Bridges between the raw input and the indexed collection. -/

theorem map_forget_map_id (l : List IDesc) :
    (l.map IDesc.forget).map (fun d => d.id) = l.map (fun e => e.id) := by
  induction l with
  | nil => rfl
  | cons e l ih => simp [IDesc.forget, ih]

theorem epDirsD_map_forget (l : List IDesc) :
    epDirsD (l.map IDesc.forget) = epDirsI l := by
  induction l with
  | nil => rfl
  | cons e l ih => simp [epDirsD, epDirsI, IDesc.forget] at ih ⊢; exact ih

theorem epCountD_map_forget (l : List IDesc) :
    epCountD (l.map IDesc.forget) = epCountI l := by
  induction l with
  | nil => rfl
  | cons e l ih => simp [epCountD, epCountI, IDesc.forget] at ih ⊢; exact ih

theorem epDirsI_length (ds : List IDesc) : (epDirsI ds).length = epCountI ds := by
  induction ds with
  | nil => simp [epDirsI, epCountI]
  | cons d ds ih => simp [epDirsI, epCountI, epDirs_length] at ih ⊢; omega

theorem mem_input_iff (c : Coll) (input : List Desc)
    (hforget : c.descs.map IDesc.forget = builderOrder input) (d : Desc) :
    d ∈ input ↔ ∃ e, e ∈ c.descs ∧ IDesc.forget e = d := by
  constructor
  · intro h
    have h2 : d ∈ builderOrder input := ((builderOrder_perm input).mem_iff).mpr h
    rw [← hforget] at h2
    obtain ⟨e, he, heq⟩ := List.mem_map.mp h2
    exact ⟨e, he, heq⟩
  · rintro ⟨e, he, rfl⟩
    have h2 : IDesc.forget e ∈ c.descs.map IDesc.forget := List.mem_map_of_mem _ he
    rw [hforget] at h2
    exact ((builderOrder_perm input).mem_iff).mp h2

theorem findById_isSome_iff (c : Coll) (input : List Desc) (hinv : IxInv c)
    (hforget : c.descs.map IDesc.forget = builderOrder input) (x : String) :
    (findById c (some x)).isSome = true ↔ ∃ d, d ∈ input ∧ d.id = some x := by
  constructor
  · intro h
    obtain ⟨p, hp⟩ := Option.isSome_iff_exists.mp h
    obtain ⟨hlt, hid⟩ := hinv.1 (some x) p hp
    refine ⟨IDesc.forget (descAt c p), ?_, hid⟩
    exact (mem_input_iff c input hforget _).mpr ⟨descAt c p, descAt_mem c p hlt, rfl⟩
  · rintro ⟨d, hd, hid⟩
    obtain ⟨e, he, heq⟩ := (mem_input_iff c input hforget d).mp hd
    have hex : e.id = some x := by rw [← hid, ← heq]; rfl
    exact mem_ids_isSome c hinv (some x)
      (List.mem_map.mpr ⟨e, he, hex⟩)

theorem refOkN_eq (c : Coll) (input : List Desc) (hinv : IxInv c)
    (hforget : c.descs.map IDesc.forget = builderOrder input) (n : Node) :
    refOkN c n = (match n with
      | .refC _ _ _ x _ => input.any (fun d2 => d2.id == some x)
      | _ => true) := by
  cases n
  case refC nm sz t x i =>
      simp only [refOkN]
      by_cases h : (findById c (some x)).isSome = true
      · obtain ⟨d, hd, hid⟩ := (findById_isSome_iff c input hinv hforget x).mp h
        rw [h]
        exact (List.any_eq_true.mpr ⟨d, hd, by simp [hid]⟩).symm
      · have hf : (findById c (some x)).isSome = false := by simpa using h
        rw [hf]
        by_cases ha : input.any (fun d2 => d2.id == some x) = true
        · obtain ⟨d, hd, hid⟩ := List.any_eq_true.mp ha
          exact absurd ((findById_isSome_iff c input hinv hforget x).mpr
            ⟨d, hd, by simpa using hid⟩) (by simp [hf])
        · simpa using (by simpa using ha : input.any (fun d2 => d2.id == some x) = false).symm
  all_goals rfl

theorem nodesOkC_true (c : Coll) (input : List Desc) (hinv : IxInv c)
    (hforget : c.descs.map IDesc.forget = builderOrder input)
    (h : refTargetsOk input = true) : nodesOkC c = true := by
  rw [nodesOkC, nodesOkL, List.all_eq_true]
  intro e he
  rw [nodesOk, List.all_eq_true]
  intro n hn
  rw [refOkN_eq c input hinv hforget n]
  cases n
  case refC nm sz t x i =>
      have hd : IDesc.forget e ∈ input := (mem_input_iff c input hforget _).mpr ⟨e, he, rfl⟩
      have h2 := List.all_eq_true.mp (List.all_eq_true.mp h (IDesc.forget e) hd)
        (Node.refC nm sz t x i) hn
      exact h2
  all_goals rfl

theorem nodesOkC_false (c : Coll) (input : List Desc) (hinv : IxInv c)
    (hforget : c.descs.map IDesc.forget = builderOrder input)
    (h : refTargetsOk input = false) : nodesOkC c = false := by
  obtain ⟨d, hd, hdf⟩ := List.all_eq_false.mp h
  have hdf2 : (d.children.all (fun n => match n with
      | Node.refC _ _ _ x _ => input.any (fun d2 => d2.id == some x)
      | _ => true)) = false := by simpa using hdf
  obtain ⟨n, hn, hnf⟩ := List.all_eq_false.mp hdf2
  obtain ⟨e, he, heq⟩ := (mem_input_iff c input hforget d).mp hd
  rw [nodesOkC, nodesOkL, List.all_eq_false]
  refine ⟨e, he, ?_⟩
  rw [nodesOk]
  intro hcon
  have hce : e.children = d.children := by rw [← heq]; rfl
  have h2 := List.all_eq_true.mp hcon n (by rw [hce]; exact hn)
  rw [refOkN_eq c input hinv hforget n] at h2
  exact hnf h2

theorem epCountI_eq_totalEp (c : Coll) (input : List Desc)
    (hforget : c.descs.map IDesc.forget = builderOrder input) :
    epCountI c.descs = totalEp input := by
  rw [← epCountD_map_forget, hforget, totalEp]
  exact ((builderOrder_perm input).map (fun d => epCount d.children)).sum_eq

theorem epDirsI_eq_builder (c : Coll) (input : List Desc)
    (hforget : c.descs.map IDesc.forget = builderOrder input) :
    epDirsI c.descs = epDirsD (builderOrder input) := by
  rw [← epDirsD_map_forget, hforget]

theorem compile_ok_of (input : List Desc) (M : Nat)
    (h1 : (input.map (fun d => d.id)).Nodup)
    (h2 : refTargetsOk input = true) (h3 : totalEp input ≤ M) :
    ∃ c rds, compile input M = .ok ⟨c, rds⟩ ∧ IxInv c ∧
      c.descs.map IDesc.forget = builderOrder input ∧ c.maxEndpoints = M ∧
      resolveDescs c 0 0 c.descs = .ok (rds, epCountI c.descs) ∧
      epPairs (rds.flatMap (fun d => d.children)) =
        (epDirsI c.descs).zip (List.range' 0 (epCountI c.descs)) := by
  have hnod : ((builderOrder input).map (fun d => d.id)).Nodup :=
    (((builderOrder_perm input).map (fun d => d.id)).nodup_iff).mpr h1
  obtain ⟨c, hix, hinv, hforget, hmax⟩ := indexAll_master (builderOrder input) M hnod
  have hok : nodesOkL c c.descs = true := nodesOkC_true c input hinv hforget h2
  have hcnt : epCountI c.descs = totalEp input := epCountI_eq_totalEp c input hforget
  have hbound : 0 + epCountI c.descs ≤ c.maxEndpoints := by rw [hmax, hcnt]; omega
  obtain ⟨rds, hres, hpairs⟩ := resolveDescs_ok c c.descs 0 0 hok hbound
  rw [Nat.zero_add] at hres
  refine ⟨c, rds, ?_, hinv, hforget, hmax, hres, hpairs⟩
  simp only [compile, hix, hres]

theorem reserveIter_ok (M : Nat) : ∀ (k s : Nat), s + k ≤ M →
    reserveIter M k s = .ok (List.range' s k, s + k) := by
  intro k
  induction k with
  | zero => intro s _; simp [reserveIter]
  | succ k ih =>
      intro s h
      have hlt : ¬ M ≤ s := by omega
      simp only [reserveIter, reserveEndpoint, if_neg hlt]
      rw [ih (s + 1) (by omega)]
      have h1 : s + 1 + k = s + (k + 1) := by omega
      have h2 : List.range' s (k + 1) = s :: List.range' (s + 1) k := List.range'_succ s k 1
      rw [h1, h2]

/-- C1: for a compilation with N endpoint nodes and bound M, the first
min(N, M) reserve_endpoint calls return the gap-free values
0, 1, ..., min(N, M) - 1; when N fits the bound, compilation succeeds and
the reserved values taken in resolution visitation order are exactly
0..N-1, each IN endpoint resolving to its reserved value OR 0x80 and each
OUT endpoint to the unmodified value; when N exceeds the bound, the
reservation at counter M fails and the compilation aborts with the
endpoint-exhaustion error. -/
theorem c1_endpoint_allocation (input : List Desc) (M : Nat)
    (h1 : (input.map (fun d => d.id)).Nodup)
    (h2 : refTargetsOk input = true) :
    reserveIter M (min (totalEp input) M) 0 =
      .ok (List.range (min (totalEp input) M), min (totalEp input) M) ∧
    (totalEp input ≤ M →
      ∃ out, compile input M = .ok out ∧
        reservedList out = List.range (totalEp input) ∧
        addrList out = epAddrSpec (builderOrder input)) ∧
    (M < totalEp input →
      compile input M = .error .endpointsExhausted ∧
      reserveEndpoint M M = .error .endpointsExhausted) := by
  refine ⟨?_, ?_, ?_⟩
  · have h := reserveIter_ok M (min (totalEp input) M) 0 (by omega)
    rw [Nat.zero_add] at h
    rw [h, List.range_eq_range']
  · intro hle
    obtain ⟨c, rds, hcomp, hinv, hforget, hmax, hres, hpairs⟩ :=
      compile_ok_of input M h1 h2 hle
    have hcnt : epCountI c.descs = totalEp input := epCountI_eq_totalEp c input hforget
    have hdl : (epDirsI c.descs).length = epCountI c.descs := epDirsI_length c.descs
    refine ⟨⟨c, rds⟩, hcomp, ?_, ?_⟩
    · show (epPairs (rds.flatMap (fun d => d.children))).map (fun pr => pr.2) = _
      rw [hpairs]
      have hmsz : ((epDirsI c.descs).zip
          (List.range' 0 (epCountI c.descs))).map (fun pr => pr.2) =
          List.range' 0 (epCountI c.descs) :=
        List.map_snd_zip _ _ (by rw [hdl]; simp)
      rw [hmsz, ← hcnt, List.range_eq_range']
    · show (epPairs (rds.flatMap (fun d => d.children))).map epAddrOf = _
      rw [hpairs, epAddrSpec, ← epDirsI_eq_builder c input hforget, hdl,
        List.range_eq_range']
  · intro hgt
    constructor
    · have hnod : ((builderOrder input).map (fun d => d.id)).Nodup :=
        (((builderOrder_perm input).map (fun d => d.id)).nodup_iff).mpr h1
      obtain ⟨c, hix, hinv, hforget, hmax⟩ := indexAll_master (builderOrder input) M hnod
      have hok : nodesOkL c c.descs = true := nodesOkC_true c input hinv hforget h2
      have hcnt : epCountI c.descs = totalEp input := epCountI_eq_totalEp c input hforget
      have herr := resolveDescs_exhaust c c.descs 0 0 hok (by omega)
        (by rw [hcnt, hmax]; omega)
      simp only [compile, hix, herr]
    · simp [reserveEndpoint]

/-- Witness for C1 at the concrete nine-endpoint input with the default
bound 8: the compilation fails with endpoint exhaustion, as does the
reservation at counter 8. -/
theorem c1_endpoint_allocation_witness :
    compile nineEpInput 8 = .error .endpointsExhausted ∧
    reserveEndpoint 8 8 = .error .endpointsExhausted :=
  (c1_endpoint_allocation nineEpInput 8 (by decide) (by decide)).2.2 (by decide)

/-- Inversion of a successful indexing fold: the invariant holds at the
end and the stored descriptors are exactly the input, in order. -/
theorem indexFold_inv (ds : List Desc) : ∀ (c c' : Coll), IxInv c →
    indexFold c ds = .ok c' →
    IxInv c' ∧ c'.descs.map IDesc.forget = c.descs.map IDesc.forget ++ ds ∧
    c'.maxEndpoints = c.maxEndpoints := by
  induction ds with
  | nil =>
      intro c c' hinv h
      simp only [indexFold] at h
      injection h with h
      subst h
      exact ⟨hinv, by simp, rfl⟩
  | cons d ds ih =>
      intro c c' hinv h
      simp only [indexFold] at h
      cases hs : indexStep c d with
      | error e =>
          simp only [hs] at h
          exact Except.noConfusion h
      | ok c1 =>
          simp only [hs] at h
          have hinv1 := ixInv_step c d c1 hinv hs
          obtain ⟨hi, hforget, hmax⟩ := ih c1 c' hinv1 h
          obtain ⟨_, hmax1, _, _, _, _, hdescs1⟩ := indexStep_ok c d c1 hs
          refine ⟨hi, ?_, by rw [hmax, hmax1]⟩
          rw [hforget, hdescs1, List.map_append]
          simp [IDesc.forget, List.append_assoc]

theorem indexAll_inv (ds : List Desc) (M : Nat) (c : Coll)
    (h : indexAll ds M = .ok c) :
    IxInv c ∧ c.descs.map IDesc.forget = ds ∧ c.maxEndpoints = M := by
  obtain ⟨hi, hf, hm⟩ := indexFold_inv ds ⟨M, [], [], [], [], []⟩ c (ixInv_init M) h
  exact ⟨hi, by simpa using hf, hm⟩

/-- C3 counterexample: a compilation whose forest carries the same id x on
two byte nodes (nodes of a non-descriptor kind) succeeds, so a duplicate
id on nodes of arbitrary kind does not fail the compilation. -/
theorem c3_counterexample :
    ¬ (allIds dupNodeIdInput).Nodup ∧ (compile dupNodeIdInput 8).isOk = true := by
  decide

/-- C3 (amended): two Descriptor nodes carrying equal id attributes make
the compilation fail with the duplicate-id error, raised by the indexing
phase before the resolution phase runs; ids on non-descriptor content
nodes are not checked. -/
theorem c3_duplicate_descriptor_id (input : List Desc) (M : Nat)
    (h : ¬ (input.map (fun d => d.id)).Nodup) :
    indexAll (builderOrder input) M = .error .duplicateId ∧
    compile input M = .error .duplicateId := by
  have hnod : ¬ ((builderOrder input).map (fun d => d.id)).Nodup := by
    intro hcon
    exact h ((((builderOrder_perm input).map (fun d => d.id)).nodup_iff).mp hcon)
  have hix := indexAll_dup (builderOrder input) M hnod
  exact ⟨hix, by simp only [compile, hix]⟩

/-- Witness for the amended C3 at two concrete descriptors sharing the id
dup. -/
theorem c3_duplicate_descriptor_id_witness :
    indexAll (builderOrder dupDescIdInput) 8 = .error .duplicateId ∧
    compile dupDescIdInput 8 = .error .duplicateId :=
  c3_duplicate_descriptor_id dupDescIdInput 8 (by decide)

/-- C4: after a successful indexing phase, for every type t the indices
assigned to the descriptors of type t are exactly 0, 1, ..., count-1, and
those descriptors are exactly the input's type-t descriptors in discovery
order, however the other types are interleaved. -/
theorem c4_index_density (input : List Desc) (M : Nat) (c : Coll)
    (hix : indexAll (builderOrder input) M = .ok c) (t : Nat) :
    ((c.descs.filter (fun e => e.type == t)).map (fun e => e.index)) =
      List.range ((input.filter (fun d => d.type == t)).length) ∧
    (c.descs.filter (fun e => e.type == t)).map IDesc.forget =
      input.filter (fun d => d.type == t) := by
  obtain ⟨hinv, hforget, _⟩ := indexAll_inv _ M c hix
  have hfm : (c.descs.map IDesc.forget).filter (fun d => d.type == t) =
      (c.descs.filter (fun e => e.type == t)).map IDesc.forget := by
    rw [List.filter_map]
    congr 1
  have key : (c.descs.filter (fun e => e.type == t)).map IDesc.forget =
      input.filter (fun d => d.type == t) := by
    rw [← hfm, hforget, builderOrder_filter]
  refine ⟨?_, key⟩
  rw [hinv.2.2.2.1 t]
  have hlen : (c.descs.filter (fun e => e.type == t)).length =
      (input.filter (fun d => d.type == t)).length := by
    rw [← key, List.length_map]
  rw [hlen]

/-- Witness for C4 at five descriptors of interleaved types 1, 2, 1, 2, 1:
the three type-1 descriptors receive indices 0, 1, 2 in input order. -/
theorem c4_index_density_witness :
    (((getOk (indexAll (builderOrder interleavedInput) 8)).descs.filter
        (fun e => e.type == 1)).map (fun e => e.index)) =
      List.range ((interleavedInput.filter (fun d => d.type == 1)).length) ∧
    ((getOk (indexAll (builderOrder interleavedInput) 8)).descs.filter
        (fun e => e.type == 1)).map IDesc.forget =
      interleavedInput.filter (fun d => d.type == 1) :=
  c4_index_density interleavedInput 8 _ rfl 1

/-- C6: a compilation containing a ref node whose target id is declared by
no descriptor aborts fatally with the missing-reference failure
(find_by_id returns None and the resolver dereferences it) and produces no
output. -/
theorem c6_missing_reference (input : List Desc) (M : Nat)
    (h1 : (input.map (fun d => d.id)).Nodup)
    (h2 : refTargetsOk input = false)
    (h3 : totalEp input ≤ M) :
    compile input M = .error .missingReference := by
  have hnod : ((builderOrder input).map (fun d => d.id)).Nodup :=
    (((builderOrder_perm input).map (fun d => d.id)).nodup_iff).mpr h1
  obtain ⟨c, hix, hinv, hforget, hmax⟩ := indexAll_master (builderOrder input) M hnod
  have hfalse : nodesOkL c c.descs = false := nodesOkC_false c input hinv hforget h2
  have hcnt : epCountI c.descs = totalEp input := epCountI_eq_totalEp c input hforget
  have herr := resolveDescs_missing c c.descs 0 0 hfalse (by rw [hcnt, hmax]; omega)
  simp only [compile, hix, herr]

/-- Witness for C6: the concrete dangling reference aborts with the
missing-reference failure. -/
theorem c6_missing_reference_witness :
    compile danglingRefInput 8 = .error .missingReference :=
  c6_missing_reference danglingRefInput 8 (by decide) (by decide) (by decide)

/-! Inversions of resolveNode on the shape of the produced node. -/

theorem resolveNode_ref_inv (c : Coll) (s e1 e2 : Nat) (n : Node)
    (nm : String) (sz t : Nat) (x : String) (oid : Option String) (v : Nat)
    (h : resolveNode c s e1 n = .ok (.refC nm sz t x oid v, e2)) :
    ∃ p, findById c (some x) = some p ∧ v = (descAt c p).index := by
  cases n
  case refC nm2 sz2 t2 x2 i2 =>
      simp only [resolveNode] at h
      cases hf : findById c (some x2) with
      | none =>
          simp only [hf] at h
          exact Except.noConfusion h
      | some p =>
          simp only [hf, Except.ok.injEq, Prod.mk.injEq, RNode.refC.injEq] at h
          obtain ⟨⟨_, _, _, h4, _, h6⟩, _⟩ := h
          refine ⟨p, ?_, h6.symm⟩
          rw [← h4]
          exact hf
  case endpointC nm2 d2 i2 =>
      simp only [resolveNode, reserveEndpoint] at h
      by_cases hM : c.maxEndpoints ≤ e1
      · rw [if_pos hM] at h
        exact Except.noConfusion h
      · rw [if_neg hM] at h
        exact absurd h (by simp)
  all_goals (simp only [resolveNode] at h; exact absurd h (by simp))

theorem resolveNode_count_inv (c : Coll) (s e1 e2 : Nat) (n : Node)
    (nm : String) (sz : Nat) (assoc : Bool) (t : Nat) (oid : Option String) (v : Nat)
    (h : resolveNode c s e1 n = .ok (.countC nm sz assoc t oid v, e2)) :
    v = ((findByType c t).filter
        (fun p => !assoc || (descAt c p).parentid == (descAt c s).id)).length := by
  cases n
  case countC nm2 sz2 assoc2 t2 i2 =>
      simp only [resolveNode, Except.ok.injEq, Prod.mk.injEq, RNode.countC.injEq] at h
      obtain ⟨⟨_, _, h3, h4, _, h6⟩, _⟩ := h
      rw [← h6, ← h3, ← h4]
  case refC nm2 sz2 t2 x2 i2 =>
      simp only [resolveNode] at h
      cases hf : findById c (some x2) with
      | none =>
          simp only [hf] at h
          exact Except.noConfusion h
      | some p =>
          simp only [hf] at h
          exact absurd h (by simp)
  case endpointC nm2 d2 i2 =>
      simp only [resolveNode, reserveEndpoint] at h
      by_cases hM : c.maxEndpoints ≤ e1
      · rw [if_pos hM] at h
        exact Except.noConfusion h
      · rw [if_neg hM] at h
        exact absurd h (by simp)
  all_goals (simp only [resolveNode] at h; exact absurd h (by simp))

theorem resolveNode_foreach_inv (c : Coll) (s e1 e2 : Nat) (n : Node)
    (assoc : Bool) (t : Nat) (es : List EchoNode) (oid : Option String)
    (matched : List Nat)
    (h : resolveNode c s e1 n = .ok (.foreachC assoc t es oid matched, e2)) :
    matched = (findByType c t).filter
      (fun p => p != s && (!assoc || (descAt c p).parentid == (descAt c s).id)) := by
  cases n
  case foreachC assoc2 t2 es2 i2 =>
      simp only [resolveNode, Except.ok.injEq, Prod.mk.injEq, RNode.foreachC.injEq] at h
      obtain ⟨⟨h1, h2, _, _, h5⟩, _⟩ := h
      rw [← h5, ← h1, ← h2]
  case refC nm2 sz2 t2 x2 i2 =>
      simp only [resolveNode] at h
      cases hf : findById c (some x2) with
      | none =>
          simp only [hf] at h
          exact Except.noConfusion h
      | some p =>
          simp only [hf] at h
          exact absurd h (by simp)
  case endpointC nm2 d2 i2 =>
      simp only [resolveNode, reserveEndpoint] at h
      by_cases hM : c.maxEndpoints ≤ e1
      · rw [if_pos hM] at h
        exact Except.noConfusion h
      · rw [if_neg hM] at h
        exact absurd h (by simp)
  all_goals (simp only [resolveNode] at h; exact absurd h (by simp))

theorem posOfType_filter_length (l : List IDesc) (t : Nat) (q : IDesc → Bool) :
    ((posOfType l t).filter (fun p => q (l.getD p default))).length =
      (l.filter (fun e => e.type == t && q e)).length := by
  induction l using List.reverseRecOn with
  | nil => simp [posOfType]
  | append_singleton l e ih =>
      rw [posOfType_snoc, List.filter_append, List.length_append]
      have h1 : (posOfType l t).filter (fun p => q ((l ++ [e]).getD p default)) =
          (posOfType l t).filter (fun p => q (l.getD p default)) := by
        apply List.filter_congr
        intro p hp
        have hplt : p < l.length := by
          have hm := List.mem_filter.mp hp
          exact List.mem_range.mp hm.1
        rw [List.getD_append _ _ _ _ hplt]
      rw [h1, ih, List.filter_append, List.length_append]
      congr 1
      have hgd : (l ++ [e]).getD l.length default = e := by
        rw [List.getD_append_right _ _ _ _ (Nat.le_refl _)]
        simp
      cases hbt : (e.type == t) with
      | true =>
          cases hq : q e with
          | true => simp [List.filter, hgd, hbt, hq]
          | false => simp [List.filter, hgd, hbt, hq]
      | false => simp [List.filter, hbt]

/-- C5: when every ref target exists (regardless of declaration order, so
forward references included), the compilation succeeds and every resolved
ref node carries exactly the index assigned to the descriptor whose id is
the ref's target — resolution runs only after the indexing of all
descriptors completed. -/
theorem c5_ref_resolution (input : List Desc) (M : Nat)
    (h1 : (input.map (fun d => d.id)).Nodup)
    (h2 : refTargetsOk input = true)
    (h3 : totalEp input ≤ M) :
    ∃ out, compile input M = .ok out ∧
      ∀ i, i < out.rdescs.length →
        ∀ r ∈ (descAtR out i).children, ∀ nm sz t x oid v,
          r = RNode.refC nm sz t x oid v →
          ∃ p, p < out.coll.descs.length ∧ (descAt out.coll p).id = some x ∧
            v = (descAt out.coll p).index := by
  obtain ⟨c, rds, hcomp, hinv, hforget, hmax, hres, _⟩ := compile_ok_of input M h1 h2 h3
  refine ⟨⟨c, rds⟩, hcomp, ?_⟩
  intro i hi r hr nm sz t x oid v hreq
  subst hreq
  obtain ⟨hlen, hnth⟩ := resolveDescs_nth c c.descs 0 0 rds _ hres
  have hilt : i < c.descs.length := by rw [← hlen]; exact hi
  obtain ⟨rs, e1, e2, ha, hb⟩ := hnth i hilt
  have hr2 : RNode.refC nm sz t x oid v ∈ rs := by
    have hdr : descAtR ⟨c, rds⟩ i = rds.getD i default := rfl
    rw [hdr, hb] at hr
    exact hr
  obtain ⟨n, _, e3, e4, hne⟩ := resolveNodes_mem c (0 + i) _ e1 rs e2 ha _ hr2
  obtain ⟨p, hfind, hv⟩ := resolveNode_ref_inv c (0 + i) e3 e4 n nm sz t x oid v hne
  obtain ⟨hp, hpid⟩ := hinv.1 (some x) p hfind
  exact ⟨p, hp, hpid, hv⟩

/-- Witness for C5 at the concrete forward reference: the ref in the first
descriptor targets the second descriptor, which exists only later in the
input, and still resolves to its index. -/
theorem c5_ref_resolution_witness :
    ∃ out, compile forwardRefInput 8 = .ok out ∧
      ∀ i, i < out.rdescs.length →
        ∀ r ∈ (descAtR out i).children, ∀ nm sz t x oid v,
          r = RNode.refC nm sz t x oid v →
          ∃ p, p < out.coll.descs.length ∧ (descAt out.coll p).id = some x ∧
            v = (descAt out.coll p).index :=
  c5_ref_resolution forwardRefInput 8 (by decide) (by decide) (by decide)

/-- C7: every resolved count node of type t with the associated flag set,
nested inside the descriptor at position i, counts the registry
descriptors of type t whose parent id equals that descriptor's id; with
the flag clear it counts all registry descriptors of type t. -/
theorem c7_count_correctness (input : List Desc) (M : Nat)
    (h1 : (input.map (fun d => d.id)).Nodup)
    (h2 : refTargetsOk input = true)
    (h3 : totalEp input ≤ M) :
    ∃ out, compile input M = .ok out ∧
      ∀ i, i < out.rdescs.length →
        ∀ r ∈ (descAtR out i).children, ∀ nm sz assoc t oid v,
          r = RNode.countC nm sz assoc t oid v →
          v = (out.coll.descs.filter (fun e => e.type == t &&
              (!assoc || e.parentid == (descAt out.coll i).id))).length := by
  obtain ⟨c, rds, hcomp, hinv, hforget, hmax, hres, _⟩ := compile_ok_of input M h1 h2 h3
  refine ⟨⟨c, rds⟩, hcomp, ?_⟩
  intro i hi r hr nm sz assoc t oid v hreq
  subst hreq
  obtain ⟨hlen, hnth⟩ := resolveDescs_nth c c.descs 0 0 rds _ hres
  have hilt : i < c.descs.length := by rw [← hlen]; exact hi
  obtain ⟨rs, e1, e2, ha, hb⟩ := hnth i hilt
  have hr2 : RNode.countC nm sz assoc t oid v ∈ rs := by
    have hdr : descAtR ⟨c, rds⟩ i = rds.getD i default := rfl
    rw [hdr, hb] at hr
    exact hr
  obtain ⟨n, _, e3, e4, hne⟩ := resolveNodes_mem c (0 + i) _ e1 rs e2 ha _ hr2
  have hv := resolveNode_count_inv c (0 + i) e3 e4 n nm sz assoc t oid v hne
  rw [Nat.zero_add] at hv
  rw [hv]
  have hbt : findByType c t = posOfType c.descs t := by
    rw [findByType]
    exact hinv.2.2.1 t
  rw [hbt]
  have hq := posOfType_filter_length c.descs t
    (fun e => !assoc || e.parentid == (descAt c i).id)
  have hcongr : (posOfType c.descs t).filter
      (fun p => !assoc || (descAt c p).parentid == (descAt c i).id) =
      (posOfType c.descs t).filter
        (fun p => !assoc || (c.descs.getD p default).parentid == (descAt c i).id) := rfl
  rw [hcongr]
  exact hq

/-- Witness for C7 at the concrete associated-count input: the count node
inside descriptor par counts the two type-2 descriptors claiming par. -/
theorem c7_count_correctness_witness :
    ∃ out, compile countInput 8 = .ok out ∧
      ∀ i, i < out.rdescs.length →
        ∀ r ∈ (descAtR out i).children, ∀ nm sz assoc t oid v,
          r = RNode.countC nm sz assoc t oid v →
          v = (out.coll.descs.filter (fun e => e.type == t &&
              (!assoc || e.parentid == (descAt out.coll i).id))).length :=
  c7_count_correctness countInput 8 (by decide) (by decide) (by decide)

/-- C10: a resolved foreach node nested in the descriptor at position i
never matches its own enclosing descriptor: the matched set is the
registry descriptors of the foreach type other than position i, further
restricted to matching parent ids when the associated flag is set. -/
theorem c10_foreach_excludes_self (input : List Desc) (M : Nat)
    (h1 : (input.map (fun d => d.id)).Nodup)
    (h2 : refTargetsOk input = true)
    (h3 : totalEp input ≤ M) :
    ∃ out, compile input M = .ok out ∧
      ∀ i, i < out.rdescs.length →
        ∀ r ∈ (descAtR out i).children, ∀ assoc t es oid matched,
          r = RNode.foreachC assoc t es oid matched →
          i ∉ matched ∧
          matched = (posOfType out.coll.descs t).filter
            (fun p => p != i && (!assoc ||
              (descAt out.coll p).parentid == (descAt out.coll i).id)) := by
  obtain ⟨c, rds, hcomp, hinv, hforget, hmax, hres, _⟩ := compile_ok_of input M h1 h2 h3
  refine ⟨⟨c, rds⟩, hcomp, ?_⟩
  intro i hi r hr assoc t es oid matched hreq
  subst hreq
  obtain ⟨hlen, hnth⟩ := resolveDescs_nth c c.descs 0 0 rds _ hres
  have hilt : i < c.descs.length := by rw [← hlen]; exact hi
  obtain ⟨rs, e1, e2, ha, hb⟩ := hnth i hilt
  have hr2 : RNode.foreachC assoc t es oid matched ∈ rs := by
    have hdr : descAtR ⟨c, rds⟩ i = rds.getD i default := rfl
    rw [hdr, hb] at hr
    exact hr
  obtain ⟨n, _, e3, e4, hne⟩ := resolveNodes_mem c (0 + i) _ e1 rs e2 ha _ hr2
  have hmv := resolveNode_foreach_inv c (0 + i) e3 e4 n assoc t es oid matched hne
  rw [Nat.zero_add] at hmv
  have hbt : findByType c t = posOfType c.descs t := by
    rw [findByType]
    exact hinv.2.2.1 t
  rw [hbt] at hmv
  refine ⟨?_, hmv⟩
  intro hmem
  rw [hmv] at hmem
  have hcond := (List.mem_filter.mp hmem).2
  simp at hcond

/-- Witness for C10 at the concrete two-descriptor foreach input: the
foreach in descriptor fe of type 5 matches only the other type-5
descriptor. -/
theorem c10_foreach_excludes_self_witness :
    ∃ out, compile foreachInput 8 = .ok out ∧
      ∀ i, i < out.rdescs.length →
        ∀ r ∈ (descAtR out i).children, ∀ assoc t es oid matched,
          r = RNode.foreachC assoc t es oid matched →
          i ∉ matched ∧
          matched = (posOfType out.coll.descs t).filter
            (fun p => p != i && (!assoc ||
              (descAt out.coll p).parentid == (descAt out.coll i).id)) :=
  c10_foreach_excludes_self foreachInput 8 (by decide) (by decide) (by decide)

theorem rnodeLen_length (out : Out) (fuel : Nat) (nm : String) (sz : Nat) (a : Bool)
    (oid : Option String) :
    rnodeLen out fuel (RNode.lengthC nm sz a oid) = some sz := by
  cases fuel <;> rfl

/-- C2 counterexample: in the end-to-end example descriptor (one-byte
length, one-byte type field, two one-byte constants, one IN endpoint) the
length node resolves to 5, because parent_length sums len over all of the
parent's children including the length node itself — not to the claimed 4,
the sum over only the four fields following it. -/
theorem c2_counterexample :
    parentLen (getOk (compile exInput 8)) 1 0 false = 5 ∧
    parentLen (getOk (compile exInput 8)) 1 0 false ≠ 4 := by
  decide

/-- C2 (amended): a length node of declared size sz at child position j of
the descriptor at position i resolves to sz plus the sum of len over its
sibling content nodes that have a length, siblings of the children kind
kept only when the all flag is set; in particular the example length
resolves to 5, not 4. -/
theorem c2_length_sums_parent (out : Out) (fuel i j : Nat) (nm : String) (sz : Nat)
    (allF : Bool) (oid : Option String)
    (hj : j < (descAtR out i).children.length)
    (hget : (descAtR out i).children.getD j default = RNode.lengthC nm sz allF oid) :
    parentLen out fuel i allF =
      sz + ((((descAtR out i).children.eraseIdx j).filter
          (fun c2 => allF || !isChildrenC c2)).filterMap (rnodeLen out fuel)).sum := by
  have hL : rnodeLen out fuel (RNode.lengthC nm sz allF oid) = some sz :=
    rnodeLen_length out fuel nm sz allF oid
  have hP : (allF || !isChildrenC (RNode.lengthC nm sz allF oid)) = true := by
    simp [isChildrenC]
  have hsplit : (descAtR out i).children =
      (descAtR out i).children.take j ++
        (descAtR out i).children.getD j default :: (descAtR out i).children.drop (j + 1) := by
    conv_lhs => rw [← List.take_append_drop j (descAtR out i).children]
    congr 1
    rw [List.getD_eq_getElem _ _ hj, List.drop_eq_getElem_cons hj]
  have her : (descAtR out i).children.eraseIdx j =
      (descAtR out i).children.take j ++ (descAtR out i).children.drop (j + 1) :=
    List.eraseIdx_eq_take_drop_succ _ j
  rw [parentLen]
  conv_lhs => rw [hsplit]
  rw [her, hget]
  simp only [List.filter_append, List.filter_cons, hP, if_true, List.filterMap_append,
    List.filterMap_cons, hL, List.sum_append, List.sum_cons]
  omega

/-- Witness for the amended C2 at the example: the length node of size 1
at child position 0 resolves to 1 plus the sum over its siblings (which
evaluates to 5 in total). -/
theorem c2_length_sums_parent_witness :
    parentLen (getOk (compile exInput 8)) 1 0 false =
      1 + ((((descAtR (getOk (compile exInput 8)) 0).children.eraseIdx 0).filter
          (fun c2 => false || !isChildrenC c2)).filterMap
            (rnodeLen (getOk (compile exInput 8)) 1)).sum :=
  c2_length_sums_parent (getOk (compile exInput 8)) 1 0 0 "bLength" 1 false none
    (by decide) (by decide)

/-- C8: the emitted descriptor table ends with the sentinel row (packed
type 0 and index 0, wIndex 0, size 0, null buffer reference), that row
occurs exactly once, and with no top-level descriptors the table is
exactly that one row. -/
theorem c8_sentinel_termination (c : Coll) :
    (tableRows c).getLast? = some sentinelRow ∧
    (tableRows c).count sentinelRow = 1 ∧
    (c.top.flatMap (fun g => g.2) = [] → tableRows c = [sentinelRow]) := by
  refine ⟨?_, ?_, ?_⟩
  · rw [tableRows]
    exact List.getLast?_concat _
  · rw [tableRows, List.count_append]
    have h0 : ((c.top.flatMap (fun g => g.2)).map (realRow c)).count sentinelRow = 0 := by
      rw [List.count_eq_zero]
      intro hmem
      obtain ⟨p, _, hrow⟩ := List.mem_map.mp hmem
      have hbuf := congrArg Row.buffer hrow
      simp [realRow, sentinelRow] at hbuf
    rw [h0]
    simp
  · intro h
    rw [tableRows, h]
    simp

/-- Witness for C8: the zero-descriptor compilation emits a table that is
exactly the sentinel row. -/
theorem c8_sentinel_termination_witness :
    tableRows (getOk (compile ([] : List Desc) 8)).coll = [sentinelRow] :=
  (c8_sentinel_termination (getOk (compile ([] : List Desc) 8)).coll).2.2 rfl

/-- C9 (code defect): the string content of the single character U+0100
has the two-byte UTF-16LE encoding 00 01 and len 2, but iterating its
byte output aborts with the TypeError raised by the hex(self, bytes) typo
instead of emitting one item for that code unit; on text whose code units
all have a zero high byte (here the two characters a and b) the iterator
does emit exactly one byte pair per code unit. -/
theorem c9_string_iter_typo :
    stringLen ['Ā'] = 2 ∧
    utf16le ['Ā'] = [0, 1] ∧
    stringIterPairs (utf16le ['Ā']) = .error .typeErr ∧
    stringIterPairs (utf16le ['a', 'b']) = .ok [(97, 0), (98, 0)] := by
  decide

end DescriptorGen
